import Mathlib

/-!
# Sequential recurrence kernels of `sc2-2019`

A shallow embedding of the exponential smoother (`expSmoothRcpp_I`,
`expSmoothRcpp_manual`, `expSmooth2`, `expSmooth`), of the Ricker map iteration
(`ricker`) and of the dot products (`dotRcpp_I`, `dotArma_I`, `dotArma_I2`,
`secondDot_I`), with theorems about them.

Conventions of the embedding.

* `double` arithmetic is modelled as exact arithmetic in an arbitrary ring `α`
  (the real numbers are an instance); rounding and non-finite values are not modelled.
* A numeric buffer is a `List α`; a pointer into a buffer is the buffer together with a
  natural-number cursor.
* C performs no bounds checks.  An access outside a buffer is undefined behaviour in the
  source; the embedding makes it explicit: the access stops the run with a `Fault`
  that records which buffer was accessed and at which index.
* `int` loop counters hold the lengths and counts they are compared with exactly.
-/

namespace SC2

/-- Names of the buffers the kernels read and write. -/
inductive Buf
  | y | ys | a | e | n | th_i | x1 | x2 | out
  deriving DecidableEq

/-- An access outside a buffer: the buffer and the offending index. -/
inductive Fault
  | read (b : Buf) (idx : Nat)
  | write (b : Buf) (idx : Nat)
  deriving DecidableEq

/-- The read `xs[i]` of a C array. -/
def load {α : Type} (b : Buf) (xs : List α) (i : Nat) : Except Fault α :=
  match xs[i]? with
  | some v => .ok v
  | none => .error (.read b i)

/-- The write `xs[i] = v` of a C array. -/
def store {α : Type} (b : Buf) (xs : List α) (i : Nat) (v : α) : Except Fault (List α) :=
  if i < xs.length then .ok (xs.set i v) else .error (.write b i)

/-- The counted loop `for (i = lo; i < hi; i++) body`, whose body changes neither `i`
nor `hi`: `forLoop body count lo s` with `count = hi - lo` (zero when `hi ≤ lo`).
The loop stops at the first fault of its body. -/
def forLoop {σ ε : Type} (body : Nat → σ → Except ε σ) : Nat → Nat → σ → Except ε σ
  | 0, _, s => .ok s
  | k + 1, i, s =>
    match body i s with
    | .ok s1 => forLoop body k (i + 1) s1
    | .error err => .error err

section Smoother

variable {α : Type} [Ring α]

/-- The loop body `ys[i] = a * ys[i-1] + (1 - a) * y[i];` shared, verbatim, by the
smoother implementations. -/
def smoothStep (y : List α) (a : α) (i : Nat) (ys : List α) : Except Fault (List α) :=
  match load .ys ys (i - 1) with
  | .error f => .error f
  | .ok p =>
    match load .y y i with
    | .error f => .error f
    | .ok yi => store .ys ys i (a * p + (1 - a) * yi)

/-- `expSmoothRcpp_I` of `content/rcpp/expSmoothRcpp_I.cpp`.
`NumericVector ys(ni)` is a zero-filled vector of length `ni`. -/
def expSmoothRcpp_I (y : List α) (a : α) : Except Fault (List α) :=
  let ni : Int := y.length
  let ys : List α := List.replicate ni.toNat 0
  match load .y y 0 with
  | .error f => .error f
  | .ok y0 =>
    match store .ys ys 0 y0 with
    | .error f => .error f
    | .ok ys1 => forLoop (smoothStep y a) (ni - 1).toNat 1 ys1

/-- `expSmooth2` of `rcpp/expSmooth2.c`.  The arguments are R vectors: `y` (already of
type double, so that `coerceVector` returns it as it is) and `a`, of which `REAL(a)[0]`
is read.  `allocVector` returns memory that is not initialised: `uninit i` is what cell
`i` of the fresh vector happens to hold.  `PROTECT`/`UNPROTECT` only concern the
garbage collector. -/
def expSmooth2 (uninit : Nat → α) (y : List α) (a : List α) : Except Fault (List α) :=
  let ni : Int := y.length
  let ys : List α := (List.range ni.toNat).map uninit
  match load .a a 0 with
  | .error f => .error f
  | .ok ai =>
    match load .y y 0 with
    | .error f => .error f
    | .ok y0 =>
      match store .ys ys 0 y0 with
      | .error f => .error f
      | .ok ys1 => forLoop (smoothStep y ai) (ni - 1).toNat 1 ys1

/-- The value the recurrence `out[0] = y[0]`, `out[i] = a*out[i-1] + (1-a)*y[i]` gives at
index `i` (entries of `y` past its end are taken as `0`; they are never used below
`y.length`). -/
def smoothAt (y : List α) (a : α) : Nat → α
  | 0 => y.getD 0 0
  | i + 1 => a * smoothAt y a i + (1 - a) * y.getD (i + 1) 0

/-- The smoothed sequence: `smoothAt` at the indices of `y`. -/
def smoothSeq (y : List α) (a : α) : List α :=
  (List.range y.length).map (smoothAt y a)

/-- `expSmoothRcpp_manual` of `content/rcpp/expSmoothRcpp_manual.cpp`.  The two `as<...>`
conversions hand over the numeric vector behind `ySEXP` and the double behind `aSEXP`. -/
def expSmoothRcpp_manual (ySEXP : List α) (aSEXP : α) : Except Fault (List α) :=
  let y : List α := ySEXP
  let a : α := aSEXP
  let ni : Int := y.length
  let ys : List α := List.replicate ni.toNat 0
  match load .y y 0 with
  | .error f => .error f
  | .ok y0 =>
    match store .ys ys 0 y0 with
    | .error f => .error f
    | .ok ys1 => forLoop (smoothStep y a) (ni - 1).toNat 1 ys1

/-- The two vectors `expSmooth` works on in place: its arguments `y` and `ys`. -/
structure SmoothMem (α : Type) where
  y : List α
  ys : List α

/-- The loop body `xys[i] = ai * xys[i-1] + (1 - ai) * xy[i];` of `expSmooth`, on the
memory of both vectors. -/
def expSmoothStep (ai : α) (i : Nat) (m : SmoothMem α) : Except Fault (SmoothMem α) :=
  match load .ys m.ys (i - 1) with
  | .error f => .error f
  | .ok p =>
    match load .y m.y i with
    | .error f => .error f
    | .ok yi =>
      match store .ys m.ys i (ai * p + (1 - ai) * yi) with
      | .error f => .error f
      | .ok ys1 => .ok ⟨m.y, ys1⟩

/-- `expSmooth` of `content/rcpp/expSmooth.c`.  All four arguments are R vectors: `y` and
`ys` of doubles, `n` of integers (`INTEGER(n)[0]` is read), `a` of doubles (`REAL(a)[0]`
is read).  The function returns `R_NilValue`; its effect is the memory it leaves. -/
def expSmooth (y ys : List α) (n : List Int) (a : List α) : Except Fault (SmoothMem α) :=
  match load .n n 0 with
  | .error f => .error f
  | .ok ni =>
    match load .a a 0 with
    | .error f => .error f
    | .ok ai =>
      match load .y y 0 with
      | .error f => .error f
      | .ok y0 =>
        match store .ys ys 0 y0 with
        | .error f => .error f
        | .ok ys1 => forLoop (expSmoothStep ai) (ni - 1).toNat 1 ⟨y, ys1⟩

end Smoother

section Range

variable {α : Type} [LinearOrder α] [Zero α]

/-- The least of `y[0], ..., y[i]`. -/
def runMin (y : List α) : Nat → α
  | 0 => y.getD 0 0
  | i + 1 => min (runMin y i) (y.getD (i + 1) 0)

/-- The greatest of `y[0], ..., y[i]`. -/
def runMax (y : List α) : Nat → α
  | 0 => y.getD 0 0
  | i + 1 => max (runMax y i) (y.getD (i + 1) 0)

end Range

section Dot

variable {α : Type} [Ring α]

/-- One pass of `sum` over the Rcpp sugar expression `x1 * x2`: element `i` of the
expression is `x1[i] * x2[i]`, and it is added to the running result. -/
def sugarSumStep (x1 x2 : List α) (i : Nat) (result : α) : Except Fault α :=
  match load .x1 x1 i with
  | .error f => .error f
  | .ok u =>
    match load .x2 x2 i with
    | .error f => .error f
    | .ok v => .ok (result + u * v)

/-- `dotRcpp_I` of `content/rcpp_advanced_II/dotRcpp.cpp`.  The sugar expression
`x1 * x2` has the size of `x1`; `sum` starts from `0` and adds its elements from index `0`
up.  `out` is a vector of length one, whose cell `0` receives the sum. -/
def dotRcpp_I (x1 x2 : List α) : Except Fault (List α) :=
  match forLoop (sugarSumStep x1 x2) x1.length 0 0 with
  | .error f => .error f
  | .ok total => store .out (List.replicate 1 0) 0 total

/-- A dense matrix of Armadillo: its numbers of rows and columns and its entries. -/
structure Mat (α : Type) where
  n_rows : Nat
  n_cols : Nat
  elem : Nat → Nat → α

/-- An `arma::vec` with the given elements: a matrix of one column. -/
def Mat.ofVec (x : List α) : Mat α :=
  ⟨x.length, 1, fun i _ => x.getD i 0⟩

/-- The elements of a matrix of one column, `none` for another shape. -/
def Mat.toVec (m : Mat α) : Option (List α) :=
  if m.n_cols = 1 then some ((List.range m.n_rows).map (fun i => m.elem i 0)) else none

/-- The transpose `.t()`. -/
def Mat.t (m : Mat α) : Mat α :=
  ⟨m.n_cols, m.n_rows, fun i j => m.elem j i⟩

/-- The matrix product `A * B`; Armadillo throws when the number of columns of `A` is
not the number of rows of `B` (`none`). -/
def Mat.mul (A B : Mat α) : Option (Mat α) :=
  if A.n_cols = B.n_rows then
    some ⟨A.n_rows, B.n_cols,
      fun i j => ((List.range A.n_cols).map (fun l => A.elem i l * B.elem l j)).sum⟩
  else none

/-- The function `arma::as_scalar`: the entry of a matrix of exactly one element;
Armadillo throws for another shape (`none`). -/
def as_scalar (m : Mat α) : Option α :=
  if m.n_rows = 1 ∧ m.n_cols = 1 then some (m.elem 0 0) else none

/-- `dotArma_I` of `rcpp_advanced_II/mypack/src/dotArma.cpp`: `out` is a vector of one
element, `out[0] = arma::as_scalar(x1.t() * x2)`. -/
def dotArma_I (x1 x2 : List α) : Option (List α) :=
  match Mat.mul (Mat.ofVec x1).t (Mat.ofVec x2) with
  | none => none
  | some prod =>
    match as_scalar prod with
    | none => none
    | some v => Mat.toVec ⟨1, 1, fun _ _ => v⟩

/-- `dotArma_I2` of `rcpp_advanced_II/mypack/src/dotArma_2.cpp`, exported to R and to
C++ under the name `dotArma2`. -/
def dotArma_I2 (x1 x2 : List α) : Option (List α) :=
  match Mat.mul (Mat.ofVec x1).t (Mat.ofVec x2) with
  | none => none
  | some prod =>
    match as_scalar prod with
    | none => none
    | some v => Mat.toVec ⟨1, 1, fun _ _ => v⟩

/-- `secondDot_I` of `rcpp_advanced_ii/secondDot.cpp`: `out = mypack::dotArma2(x1, x2)`.
The C++ interface `mypack::dotArma2` of the package is a parameter. -/
def secondDot_I (dotArma2 : List α → List α → Option (List α)) (x1 x2 : List α) :
    Option (List α) :=
  dotArma2 x1 x2

end Dot

section Ricker

variable {α : Type} [Ring α]

/-- The memory `ricker` works on through its two moving pointers: `e` is the offset of
the noise pointer `e` from the start of the noise, `n` the offset of the output pointer
`n` from the start of the output buffer, `out` the contents of that buffer. -/
structure Mem (α : Type) where
  e : Nat
  n : Nat
  out : List α

/-- The state inside one replication: the running log population `x` and the memory. -/
structure Traj (α : Type) where
  x : α
  m : Mem α

/-- The right-hand side of `x += log_r - exp(x) + *e * sig_e`, with `v` the noise value
`*e`.  `exp` is the exponential of `math.h`. -/
def rickerUpdate (exp : α → α) (log_r sig_e : α) (x v : α) : α :=
  x + (log_r - exp x + v * sig_e)

/-- One pass of the burn-in loop of line 16:
`x += log_r - exp(x) + *e * sig_e` followed by `e++`. -/
def burnStep (exp : α → α) (log_r sig_e : α) (noise : List α) (_i : Nat) (s : Traj α) :
    Except (Fault × Mem α) (Traj α) :=
  match load .e noise s.m.e with
  | .error f => .error (f, s.m)
  | .ok v => .ok ⟨rickerUpdate exp log_r sig_e s.x v, { s.m with e := s.m.e + 1 }⟩

/-- One pass of the recording loop of line 17:
`x += log_r - exp(x) + *e * sig_e; *n = x;` followed by `e++, n++`. -/
def recordStep (exp : α → α) (log_r sig_e : α) (noise : List α) (_i : Nat) (s : Traj α) :
    Except (Fault × Mem α) (Traj α) :=
  match load .e noise s.m.e with
  | .error f => .error (f, s.m)
  | .ok v =>
    match store .n s.m.out s.m.n (rickerUpdate exp log_r sig_e s.x v) with
    | .error f => .error (f, s.m)
    | .ok out1 =>
      .ok ⟨rickerUpdate exp log_r sig_e s.x v, ⟨s.m.e + 1, s.m.n + 1, out1⟩⟩

/-- The body of the loop over replications (lines 16 and 17): `x = *n0`, the burn-in
loop, the recording loop.  `x` is assigned before it is read, so it is local here. -/
def replication (exp : α → α) (log_r sig_e : α) (noise : List α) (burn_in n_t : Int)
    (n0 : α) (_j : Nat) (m : Mem α) : Except (Fault × Mem α) (Mem α) :=
  match forLoop (burnStep exp log_r sig_e noise) burn_in.toNat 0 ⟨n0, m⟩ with
  | .error err => .error err
  | .ok s1 =>
    match forLoop (recordStep exp log_r sig_e noise) n_t.toNat 0 s1 with
    | .error err => .error err
    | .ok s2 => .ok s2.m

/-- Lines 15 to 18 of `ricker`: the iteration of the Ricker map, with the locals `log_r`
and `sig_e` as they stand when the loops are entered.  The pointer arguments have the
types the statements need: `n` and `e` point to doubles (the output buffer and the
noise), `burn_in`, `n_t` and `n_reps` to an `int` each, `n0` to a double.  The result is
the memory when the loops are left, or the fault that stopped them together with the
memory at that moment. -/
def rickerLoop (exp : α → α) (log_r sig_e : α) (n : List α) (e : List α)
    (burn_in n_t n_reps : Int) (n0 : α) : Except (Fault × Mem α) (Mem α) :=
  forLoop (replication exp log_r sig_e e burn_in n_t n0) n_reps.toNat 0 ⟨0, 0, n⟩

/-- The function `ricker` of `rcpp/ricker.cpp`.  Line 11, `th_i = REAL( th_i )`, applies
`REAL` to the local pointer `th_i` itself, which has no value yet; the argument `theta`
is not read anywhere.  The parameter `th_i` stands for the memory that pointer happens
to designate, from which lines 12 and 13 take `log_r` and `sig_e`.  The body ends
without a `return`; what the call leaves behind is the memory after the loops. -/
def ricker (exp : α → α) (th_i : List α) (n : List α) (_theta : List α) (e : List α)
    (burn_in n_t n_reps : Int) (n0 : α) : Except (Fault × Mem α) (Mem α) :=
  match load .th_i th_i 0 with
  | .error f => .error (f, ⟨0, 0, n⟩)
  | .ok log_r =>
    match load .th_i th_i 1 with
    | .error f => .error (f, ⟨0, 0, n⟩)
    | .ok sig_e => rickerLoop exp log_r sig_e n e burn_in n_t n_reps n0

/-- The output sequence of a run: the cells of the output buffer the output pointer has
moved past, each written once. -/
def Mem.written {α : Type} (m : Mem α) : List α :=
  m.out.take m.n

/-- The update of the specification, in its words:
`x + logGrowthRate - exp(x) + noiseValue * noiseStdDev`. -/
def specStep (exp : α → α) (logGrowthRate noiseStdDev : α) (x noiseValue : α) : α :=
  x + logGrowthRate - exp x + noiseValue * noiseStdDev

end Ricker

section LoopRules

variable {σ ε : Type}

/-- Invariant rule for a counted loop whose body never faults under the invariant. -/
theorem forLoop_inv (body : Nat → σ → Except ε σ) (P : Nat → σ → Prop) (hi : Nat)
    (hbody : ∀ i s, i < hi → P i s → ∃ s1, body i s = .ok s1 ∧ P (i + 1) s1) :
    ∀ (c i : Nat) (s : σ), i + c = hi → P i s →
      ∃ s1, forLoop body c i s = .ok s1 ∧ P hi s1 := by
  intro c
  induction c with
  | zero =>
    intro i s h hP
    simp only [Nat.add_zero] at h
    subst h
    exact ⟨s, rfl, hP⟩
  | succ k ih =>
    intro i s h hP
    obtain ⟨s1, hs1, hP1⟩ := hbody i s (by omega) hP
    obtain ⟨s2, hs2, hP2⟩ := ih (i + 1) s1 (by omega) hP1
    exact ⟨s2, by simp only [forLoop, hs1, hs2], hP2⟩

/-- A counted loop of `c1 + c2` passes is the loop of the first `c1` passes followed,
when these end without fault, by the loop of the remaining `c2`. -/
theorem forLoop_add (body : Nat → σ → Except ε σ) (c1 c2 : Nat) :
    ∀ (i : Nat) (s : σ), forLoop body (c1 + c2) i s =
      match forLoop body c1 i s with
      | .ok s1 => forLoop body c2 (i + c1) s1
      | .error err => .error err := by
  induction c1 with
  | zero => intro i s; simp [forLoop]
  | succ k ih =>
    intro i s
    rw [Nat.add_right_comm k 1 c2]
    simp only [forLoop]
    cases hb : body i s with
    | error err => rfl
    | ok s1 =>
      simp only
      rw [ih (i + 1) s1, Nat.add_assoc i 1 k, Nat.add_comm 1 k]

end LoopRules

section SmootherProofs

variable {α : Type} [Ring α]

theorem load_ok {β : Type} (b : Buf) (xs : List β) (i : Nat) (v : β) (h : xs[i]? = some v) :
    load b xs i = .ok v := by
  simp [load, h]

theorem store_ok {β : Type} (b : Buf) (xs : List β) (i : Nat) (v : β) (h : i < xs.length) :
    store b xs i v = .ok (xs.set i v) := by
  simp [store, h]

theorem smoothAt_succ_of_lt (y : List α) (a : α) (i : Nat) (h : i + 1 < y.length) :
    smoothAt y a (i + 1) = a * smoothAt y a i + (1 - a) * y[i + 1] := by
  simp [smoothAt, List.getD_eq_getElem?_getD, List.getElem?_eq_getElem h]

theorem smoothSeq_length (y : List α) (a : α) : (smoothSeq y a).length = y.length := by
  simp [smoothSeq]

theorem smoothSeq_getElem? (y : List α) (a : α) (i : Nat) (h : i < y.length) :
    (smoothSeq y a)[i]? = some (smoothAt y a i) := by
  simp [smoothSeq, List.getElem?_map, List.getElem?_range h]

/-- One pass of the smoothing loop keeps the cells below `i` and puts the recurrence
value into cell `i`. -/
theorem smoothStep_inv (y : List α) (a : α) (i : Nat) (ys : List α)
    (hi : i < y.length)
    (hP : 1 ≤ i ∧ ys.length = y.length ∧ ∀ j, j < i → ys[j]? = some (smoothAt y a j)) :
    ∃ ys1, smoothStep y a i ys = .ok ys1 ∧
      (1 ≤ i + 1 ∧ ys1.length = y.length ∧
        ∀ j, j < i + 1 → ys1[j]? = some (smoothAt y a j)) := by
  obtain ⟨h1, hlen, hval⟩ := hP
  obtain ⟨k, rfl⟩ : ∃ k, i = k + 1 := ⟨i - 1, by omega⟩
  have hp : load .ys ys (k + 1 - 1) = .ok (smoothAt y a k) :=
    load_ok _ _ _ _ (by simpa using hval k (by omega))
  have hy : load .y y (k + 1) = .ok y[k + 1] :=
    load_ok _ _ _ _ (List.getElem?_eq_getElem hi)
  have hs := store_ok .ys ys (k + 1) (a * smoothAt y a k + (1 - a) * y[k + 1])
    (by omega)
  refine ⟨ys.set (k + 1) (a * smoothAt y a k + (1 - a) * y[k + 1]),
    by simp only [smoothStep, hp, hy, hs], by omega, by simp [hlen], ?_⟩
  intro j hj
  by_cases hjk : j = k + 1
  · subst hjk
    rw [List.getElem?_set_self (by omega), smoothAt_succ_of_lt y a k hi]
  · rw [List.getElem?_set_ne (by omega)]
    exact hval j (by omega)

/-- The smoothing loop, started on a buffer of the length of `y` whose first cell holds
`y[0]`, ends with the smoothed sequence in the buffer. -/
theorem smoothLoop_ok (y : List α) (a : α) (ys1 : List α) (hy : 1 ≤ y.length)
    (hlen : ys1.length = y.length) (h0 : ys1[0]? = y[0]?) :
    forLoop (smoothStep y a) (y.length - 1) 1 ys1 = .ok (smoothSeq y a) := by
  obtain ⟨out, hrun, -, hl, hv⟩ := forLoop_inv (smoothStep y a)
    (fun i ys => 1 ≤ i ∧ ys.length = y.length ∧ ∀ j, j < i → ys[j]? = some (smoothAt y a j))
    y.length (smoothStep_inv y a) (y.length - 1) 1 ys1 (by omega)
    ⟨le_refl 1, hlen, by
      intro j hj
      obtain rfl : j = 0 := by omega
      rw [h0, List.getElem?_eq_getElem (by omega)]
      simp [smoothAt, List.getD_eq_getElem?_getD, List.getElem?_eq_getElem hy]⟩
  rw [hrun]
  congr 1
  apply List.ext_getElem?
  intro j
  by_cases hj : j < y.length
  · rw [hv j hj, smoothSeq_getElem? y a j hj]
  · rw [List.getElem?_eq_none (by omega), List.getElem?_eq_none (by simp [smoothSeq]; omega)]

/-- On a non-empty input `expSmoothRcpp_I` returns the smoothed sequence. -/
theorem expSmoothRcpp_I_eq (y : List α) (a : α) (hy : 1 ≤ y.length) :
    expSmoothRcpp_I y a = .ok (smoothSeq y a) := by
  have hl : load .y y 0 = .ok y[0] := load_ok _ _ _ _ (List.getElem?_eq_getElem hy)
  have hs := store_ok .ys (List.replicate y.length (0 : α)) 0 y[0] (by simpa using hy)
  have hn : ((y.length : Int) - 1).toNat = y.length - 1 := by omega
  simp only [expSmoothRcpp_I, Int.toNat_ofNat, hl, hs, hn]
  exact smoothLoop_ok y a _ hy (by simp) (by
    rw [List.getElem?_set_self (by simpa using hy), List.getElem?_eq_getElem hy])

/-- On a non-empty input, and with the smoothing parameter in a vector of length one,
`expSmooth2` returns the smoothed sequence, whatever the fresh vector held. -/
theorem expSmooth2_eq (uninit : Nat → α) (y : List α) (a : α) (hy : 1 ≤ y.length) :
    expSmooth2 uninit y [a] = .ok (smoothSeq y a) := by
  have ha : load .a [a] 0 = .ok a := load_ok _ _ _ _ rfl
  have hl : load .y y 0 = .ok y[0] := load_ok _ _ _ _ (List.getElem?_eq_getElem hy)
  have hs := store_ok .ys ((List.range y.length).map uninit) 0 y[0] (by simpa using hy)
  have hn : ((y.length : Int) - 1).toNat = y.length - 1 := by omega
  simp only [expSmooth2, Int.toNat_ofNat, ha, hl, hs, hn]
  exact smoothLoop_ok y a _ hy (by simp) (by
    rw [List.getElem?_set_self (by simpa using hy), List.getElem?_eq_getElem hy])

theorem smoothAt_one (y : List α) (i : Nat) : smoothAt y 1 i = y.getD 0 0 := by
  induction i with
  | zero => rfl
  | succ k ih => simp [smoothAt, ih]

theorem smoothAt_zero (y : List α) (i : Nat) : smoothAt y 0 i = y.getD i 0 := by
  cases i with
  | zero => rfl
  | succ k => simp [smoothAt]

theorem smoothSeq_zero (y : List α) : smoothSeq y 0 = y := by
  apply List.ext_getElem?
  intro j
  by_cases hj : j < y.length
  · rw [smoothSeq_getElem? y 0 j hj, smoothAt_zero, List.getD_eq_getElem?_getD,
      List.getElem?_eq_getElem hj]
    rfl
  · rw [List.getElem?_eq_none (by simp [smoothSeq]; omega), List.getElem?_eq_none (by omega)]

/-- The smoother at `a = 0` returns its input when the input is not empty. -/
theorem expSmoothRcpp_I_zero_of_ne_nil (y : List α) (hn : 1 ≤ y.length) :
    expSmoothRcpp_I y 0 = .ok y := by
  rw [expSmoothRcpp_I_eq y 0 hn, smoothSeq_zero]

end SmootherProofs

section SmootherClaims

variable {α : Type} [Ring α]

/-- C1. For every input `y` of length `n ≥ 1` and every `a`, `expSmoothRcpp_I y a`
returns an output `out` (and `expSmooth2` returns the same one) of the length of `y`
with `out[0] = y[0]` and, for `1 ≤ i < n`, `out[i] = a * out[i-1] + (1 - a) * y[i]`. -/
theorem smoother_recurrence (uninit : Nat → α) (y : List α) (a : α) (hn : 1 ≤ y.length) :
    ∃ out, expSmoothRcpp_I y a = .ok out ∧ expSmooth2 uninit y [a] = .ok out ∧
      out.length = y.length ∧ out[0]? = y[0]? ∧
      ∀ i, 1 ≤ i → i < y.length →
        ∃ p yi, out[i - 1]? = some p ∧ y[i]? = some yi ∧
          out[i]? = some (a * p + (1 - a) * yi) := by
  refine ⟨smoothSeq y a, expSmoothRcpp_I_eq y a hn, expSmooth2_eq uninit y a hn,
    smoothSeq_length y a, ?_, ?_⟩
  · rw [smoothSeq_getElem? y a 0 hn, List.getElem?_eq_getElem hn]
    simp [smoothAt, List.getD_eq_getElem?_getD, List.getElem?_eq_getElem hn]
  · intro i h1 hi
    obtain ⟨k, rfl⟩ : ∃ k, i = k + 1 := ⟨i - 1, by omega⟩
    refine ⟨smoothAt y a k, y[k + 1], ?_, List.getElem?_eq_getElem hi, ?_⟩
    · simpa using smoothSeq_getElem? y a k (by omega)
    · rw [smoothSeq_getElem? y a (k + 1) hi, smoothAt_succ_of_lt y a k hi]

/-- Witness of C1 at `y = [10, 20, 30]`, `a = 1/2` over the rationals. -/
theorem smoother_recurrence_witness :
    1 ≤ ([10, 20, 30] : List ℚ).length ∧
    ∃ out, expSmoothRcpp_I ([10, 20, 30] : List ℚ) (1 / 2) = .ok out ∧
      expSmooth2 (fun _ => 7) ([10, 20, 30] : List ℚ) [1 / 2] = .ok out ∧
      out.length = ([10, 20, 30] : List ℚ).length ∧ out[0]? = ([10, 20, 30] : List ℚ)[0]? ∧
      ∀ i, 1 ≤ i → i < ([10, 20, 30] : List ℚ).length →
        ∃ p yi, out[i - 1]? = some p ∧ ([10, 20, 30] : List ℚ)[i]? = some yi ∧
          out[i]? = some (1 / 2 * p + (1 - 1 / 2) * yi) :=
  ⟨by decide, smoother_recurrence (fun _ => 7) [10, 20, 30] (1 / 2) (by decide)⟩

/-- C5. On the empty input both `expSmoothRcpp_I` and `expSmooth2` execute
`ys[0] = y[0]` all the same: the run stops at the read of `y[0]` outside the empty
buffer, for every `a`; it does not return the empty sequence. -/
theorem smoother_empty_faults (uninit : Nat → α) (a : α) :
    expSmoothRcpp_I ([] : List α) a = .error (.read .y 0) ∧
    expSmooth2 uninit ([] : List α) [a] = .error (.read .y 0) :=
  ⟨rfl, rfl⟩

/-- C6. For every input `y` of length `n ≥ 1` and every `a`, `expSmoothRcpp_I y a`
returns, and what it returns has length `n`. -/
theorem smoother_length (y : List α) (a : α) (hn : 1 ≤ y.length) :
    ∃ out, expSmoothRcpp_I y a = .ok out ∧ out.length = y.length :=
  ⟨smoothSeq y a, expSmoothRcpp_I_eq y a hn, smoothSeq_length y a⟩

/-- Witness of C6 at `y = [3, -1]`, `a = 5` (outside the unit interval). -/
theorem smoother_length_witness :
    1 ≤ ([3, -1] : List ℚ).length ∧
    ∃ out, expSmoothRcpp_I ([3, -1] : List ℚ) 5 = .ok out ∧
      out.length = ([3, -1] : List ℚ).length :=
  ⟨by decide, smoother_length [3, -1] 5 (by decide)⟩

/-- C7. For every input `y` of length `n ≥ 1`, `expSmoothRcpp_I y 1` returns the
sequence of length `n` all of whose entries are `y[0]`. -/
theorem smoother_one (y : List α) (hn : 1 ≤ y.length) :
    expSmoothRcpp_I y 1 = .ok (List.replicate y.length y[0]) := by
  rw [expSmoothRcpp_I_eq y 1 hn]
  congr 1
  apply List.ext_getElem?
  intro j
  by_cases hj : j < y.length
  · rw [smoothSeq_getElem? y 1 j hj, smoothAt_one, List.getD_eq_getElem?_getD,
      List.getElem?_eq_getElem hn, List.getElem?_replicate]
    simp [hj]
  · rw [List.getElem?_eq_none (by simp [smoothSeq]; omega),
      List.getElem?_eq_none (by simp; omega)]

/-- Witness of C7 at `y = [4, 9, 2]`. -/
theorem smoother_one_witness :
    1 ≤ ([4, 9, 2] : List ℚ).length ∧
    expSmoothRcpp_I ([4, 9, 2] : List ℚ) 1 = .ok (List.replicate 3 4) :=
  ⟨by decide, smoother_one [4, 9, 2] (by decide)⟩

/-- C8. At `a = 0` and the empty input `y`, `expSmoothRcpp_I` does not return `y`: the
run stops at the read of `y[0]`. -/
theorem smoother_zero_empty_faults :
    expSmoothRcpp_I ([] : List ℚ) 0 = .error (.read .y 0) ∧
    expSmoothRcpp_I ([] : List ℚ) 0 ≠ .ok [] :=
  ⟨rfl, by simp [expSmoothRcpp_I, load]⟩

end SmootherClaims

section RickerProofs

variable {α : Type} [Ring α]
variable (exp : α → α) (log_r sig_e : α) (noise : List α)

theorem drop_take_succ {β : Type} (l : List β) (k c : Nat) (h : k < l.length) :
    (l.drop k).take (c + 1) = l[k] :: (l.drop (k + 1)).take c := by
  rw [List.drop_eq_getElem_cons h, List.take_succ_cons]

/-- The burn-in loop with enough noise left: `c` updates of `x`, the noise pointer moved
by `c`, nothing written. -/
theorem burn_ok (c : Nat) : ∀ (i : Nat) (x : α) (m : Mem α), m.e + c ≤ noise.length →
    forLoop (burnStep exp log_r sig_e noise) c i ⟨x, m⟩ =
      .ok ⟨((noise.drop m.e).take c).foldl (rickerUpdate exp log_r sig_e) x,
        ⟨m.e + c, m.n, m.out⟩⟩ := by
  induction c with
  | zero => intro i x m _; simp [forLoop]
  | succ k ih =>
    intro i x m h
    have hl : load .e noise m.e = .ok noise[m.e] :=
      load_ok _ _ _ _ (List.getElem?_eq_getElem (by omega))
    simp only [forLoop, burnStep, hl]
    rw [ih (i + 1) _ ⟨m.e + 1, m.n, m.out⟩ (by simp; omega),
      drop_take_succ noise m.e k (by omega)]
    simp [Nat.add_assoc, Nat.add_comm 1 k]

/-- The recording loop with enough noise and enough room left: `c` updates of `x`, each
written to the next output cell; the other cells keep their contents. -/
theorem record_ok (c : Nat) : ∀ (i : Nat) (x : α) (m : Mem α), m.e + c ≤ noise.length →
    m.n + c ≤ m.out.length →
    ∃ out1, forLoop (recordStep exp log_r sig_e noise) c i ⟨x, m⟩ =
        .ok ⟨((noise.drop m.e).take c).foldl (rickerUpdate exp log_r sig_e) x,
          ⟨m.e + c, m.n + c, out1⟩⟩ ∧
      out1.length = m.out.length ∧
      ∀ j, out1[j]? = if m.n ≤ j ∧ j < m.n + c then
          some (((noise.drop m.e).take (j - m.n + 1)).foldl (rickerUpdate exp log_r sig_e) x)
        else m.out[j]? := by
  induction c with
  | zero =>
    intro i x m _ _
    refine ⟨m.out, by simp [forLoop], rfl, ?_⟩
    intro j
    rw [if_neg (by omega)]
  | succ k ih =>
    intro i x m h hn
    have hl : load .e noise m.e = .ok noise[m.e] :=
      load_ok _ _ _ _ (List.getElem?_eq_getElem (by omega))
    have hs := store_ok .n m.out m.n (rickerUpdate exp log_r sig_e x noise[m.e]) (by omega)
    obtain ⟨out1, hrun, hlen, hval⟩ := ih (i + 1) (rickerUpdate exp log_r sig_e x noise[m.e])
      ⟨m.e + 1, m.n + 1, m.out.set m.n (rickerUpdate exp log_r sig_e x noise[m.e])⟩
      (by simp; omega) (by simp; omega)
    refine ⟨out1, ?_, by simpa using hlen, ?_⟩
    · simp only [forLoop, recordStep, hl, hs, hrun]
      rw [drop_take_succ noise m.e k (by omega)]
      simp [Nat.add_assoc, Nat.add_comm 1 k]
    · intro j
      rw [hval j]
      simp only
      by_cases h1 : j < m.n
      · rw [if_neg (by omega), if_neg (by omega), List.getElem?_set_ne (by omega)]
      · by_cases h2 : j = m.n
        · subst h2
          rw [if_neg (by omega), if_pos (by omega), List.getElem?_set_self (by omega)]
          rw [Nat.sub_self, drop_take_succ noise m.e 0 (by omega)]
          simp
        · by_cases h3 : j < m.n + (k + 1)
          · rw [if_pos (by omega), if_pos (by omega)]
            have hj : j - m.n + 1 = (j - (m.n + 1) + 1) + 1 := by omega
            rw [hj, drop_take_succ noise m.e _ (by omega)]
            simp
          · rw [if_neg (by omega), if_neg (by omega), List.getElem?_set_ne (by omega)]

theorem foldl_take_add {β γ : Type} (f : γ → β → γ) (x : γ) (l : List β) (k b c : Nat) :
    ((l.drop (k + b)).take c).foldl f (((l.drop k).take b).foldl f x) =
      ((l.drop k).take (b + c)).foldl f x := by
  rw [List.take_add, List.foldl_append, List.drop_drop]

/-- One replication with enough noise and enough room left: the noise pointer moves by
`b + h`, the output pointer by `h`, and output cell `m.n + i` (for `i < h`) receives the
iterate reached from `n0` after `b + i + 1` updates. -/
theorem replication_ok (n0 : α) (b h j : Nat) (m : Mem α)
    (he : m.e + (b + h) ≤ noise.length) (hn : m.n + h ≤ m.out.length) :
    ∃ out1, replication exp log_r sig_e noise b h n0 j m = .ok ⟨m.e + (b + h), m.n + h, out1⟩ ∧
      out1.length = m.out.length ∧
      ∀ idx, out1[idx]? = if m.n ≤ idx ∧ idx < m.n + h then
          some (((noise.drop m.e).take (b + (idx - m.n) + 1)).foldl
            (rickerUpdate exp log_r sig_e) n0)
        else m.out[idx]? := by
  obtain ⟨out1, hrun, hlen, hval⟩ := record_ok exp log_r sig_e noise h 0
    (((noise.drop m.e).take b).foldl (rickerUpdate exp log_r sig_e) n0)
    ⟨m.e + b, m.n, m.out⟩ (by simp; omega) (by simpa using hn)
  refine ⟨out1, ?_, hlen, ?_⟩
  · simp only [replication, Int.toNat_ofNat, burn_ok exp log_r sig_e noise b 0 n0 m (by omega),
      hrun, foldl_take_add, Nat.add_assoc]
  · intro idx
    rw [hval idx]
    simp only [foldl_take_add, Nat.add_assoc]

/-- The loops of `ricker` with enough noise and a large enough output buffer: they end
without fault, the noise pointer at `R * (b + h)`, the output pointer at `R * h`; cell
`idx < R * h` holds the iterate of replication `idx / h` at recording step `idx % h`, and
the cells from `R * h` on are as they were. -/
theorem rickerLoop_ok (n : List α) (n0 : α) (b h R : Nat)
    (he : R * (b + h) ≤ noise.length) (hn : R * h ≤ n.length) :
    ∃ out, rickerLoop exp log_r sig_e n noise b h R n0 = .ok ⟨R * (b + h), R * h, out⟩ ∧
      out.length = n.length ∧
      ∀ idx, out[idx]? = if idx < R * h then
          some (((noise.drop (idx / h * (b + h))).take (b + idx % h + 1)).foldl
            (rickerUpdate exp log_r sig_e) n0)
        else n[idx]? := by
  obtain ⟨fin, hrun, hfe, hfn, hlen, hval⟩ := forLoop_inv
    (replication exp log_r sig_e noise b h n0)
    (fun j m => m.e = j * (b + h) ∧ m.n = j * h ∧ m.out.length = n.length ∧
      ∀ idx, m.out[idx]? = if idx < j * h then
          some (((noise.drop (idx / h * (b + h))).take (b + idx % h + 1)).foldl
            (rickerUpdate exp log_r sig_e) n0)
        else n[idx]?) R
    (by
      intro j m hj ⟨hme, hmn, hml, hmv⟩
      have h1 : (j + 1) * (b + h) ≤ R * (b + h) := Nat.mul_le_mul_right _ hj
      have h2 : (j + 1) * h ≤ R * h := Nat.mul_le_mul_right _ hj
      have h3 : (j + 1) * (b + h) = j * (b + h) + (b + h) := Nat.succ_mul _ _
      have h4 : (j + 1) * h = j * h + h := Nat.succ_mul _ _
      obtain ⟨out1, hrun, hlen, hval⟩ := replication_ok exp log_r sig_e noise n0 b h j m
        (by omega) (by omega)
      refine ⟨_, hrun, by simp only; omega, by simp only; omega, by simp only; omega, ?_⟩
      intro idx
      simp only
      rw [hval idx]
      by_cases c1 : idx < j * h
      · rw [if_neg (by omega), hmv idx, if_pos c1, if_pos (by omega)]
      · by_cases c2 : idx < j * h + h
        · have hdiv : idx / h = j := Nat.div_eq_of_lt_le (by omega) (by omega)
          have hmod : idx % h = idx - m.n := by
            have := Nat.div_add_mod idx h
            rw [hdiv, Nat.mul_comm] at this
            omega
          rw [if_pos (by omega), if_pos (by omega), hdiv, hmod, hme]
        · rw [if_neg (by omega), hmv idx, if_neg c1, if_neg (by omega)])
    R 0 ⟨0, 0, n⟩ (by omega) ⟨by simp, by simp, rfl, by simp⟩
  obtain ⟨fe, fn, fout⟩ := fin
  simp only at hfe hfn hlen hval
  subst hfe hfn
  exact ⟨fout, by simpa [rickerLoop] using hrun, hlen, hval⟩

/-- When the memory behind `th_i` starts with two values, `ricker` is its loops run with
these as `log_r` and `sig_e`, whatever `theta` is. -/
theorem ricker_eq_rickerLoop (lr sg : α) (rest n theta : List α) (burn_in n_t n_reps : Int)
    (n0 : α) :
    ricker exp (lr :: sg :: rest) n theta noise burn_in n_t n_reps n0 =
      rickerLoop exp lr sg n noise burn_in n_t n_reps n0 := by
  simp [ricker, load]

theorem specStep_eq_rickerUpdate :
    specStep exp log_r sig_e = rickerUpdate exp log_r sig_e := by
  funext x v
  simp only [specStep, rickerUpdate]
  abel

theorem div_mod_of_block (k h i : Nat) (hi : i < h) :
    (k * h + i) / h = k ∧ (k * h + i) % h = i := by
  have hdiv : (k * h + i) / h = k :=
    Nat.div_eq_of_lt_le (by omega) (by rw [Nat.succ_mul]; omega)
  refine ⟨hdiv, ?_⟩
  have := Nat.div_add_mod (k * h + i) h
  rw [hdiv, Nat.mul_comm] at this
  omega

/-- The loops of `ricker` with enough noise and a large enough output buffer, cell by
cell: cell `k * h + i` holds the iterate of replication `k` after `b + i + 1` updates. -/
theorem rickerLoop_cells (n : List α) (n0 : α) (b h R : Nat)
    (he : R * (b + h) ≤ noise.length) (hn : R * h ≤ n.length) :
    ∃ out, rickerLoop exp log_r sig_e n noise b h R n0 = .ok ⟨R * (b + h), R * h, out⟩ ∧
      out.length = n.length ∧
      (∀ k i, k < R → i < h → out[k * h + i]? =
        some (((noise.drop (k * (b + h))).take (b + i + 1)).foldl
          (rickerUpdate exp log_r sig_e) n0)) ∧
      ∀ idx, R * h ≤ idx → out[idx]? = n[idx]? := by
  obtain ⟨out, hrun, hlen, hval⟩ := rickerLoop_ok exp log_r sig_e noise n n0 b h R he hn
  refine ⟨out, hrun, hlen, ?_, ?_⟩
  · intro k i hk hi
    obtain ⟨hd, hm⟩ := div_mod_of_block k h i hi
    have h1 : (k + 1) * h ≤ R * h := Nat.mul_le_mul_right _ hk
    have h2 : (k + 1) * h = k * h + h := Nat.succ_mul _ _
    rw [hval (k * h + i), if_pos (by omega), hd, hm]
  · intro idx hidx
    rw [hval idx, if_neg (by omega)]

/-- Replication `k` of a run of `R` replications records what a run of one replication
records on the `k`-th block of the noise. -/
theorem rickerLoop_slice (n n1 : List α) (n0 : α) (b h R k : Nat)
    (he : R * (b + h) ≤ noise.length) (hn : R * h ≤ n.length) (hn1 : h ≤ n1.length)
    (hk : k < R) :
    ∃ fin fin1, rickerLoop exp log_r sig_e n noise b h R n0 = .ok fin ∧
      rickerLoop exp log_r sig_e n1 ((noise.drop (k * (b + h))).take (b + h)) b h (1 : ℕ) n0
        = .ok fin1 ∧
      (fin.out.drop (k * h)).take h = fin1.written := by
  have h1 : (k + 1) * (b + h) ≤ R * (b + h) := Nat.mul_le_mul_right _ hk
  have h2 : (k + 1) * (b + h) = k * (b + h) + (b + h) := Nat.succ_mul _ _
  obtain ⟨out, hrun, -, hcell, -⟩ := rickerLoop_cells exp log_r sig_e noise n n0 b h R he hn
  obtain ⟨out1, hrun1, -, hcell1, -⟩ := rickerLoop_cells exp log_r sig_e
    ((noise.drop (k * (b + h))).take (b + h)) n1 n0 b h 1
    (by simp only [List.length_take, List.length_drop]; omega) (by omega)
  refine ⟨_, _, hrun, hrun1, ?_⟩
  simp only [Mem.written]
  apply List.ext_getElem?
  intro j
  rw [List.getElem?_take, List.getElem?_take, List.getElem?_drop]
  by_cases hj : j < h
  · have hc := hcell1 0 j (by omega) hj
    simp only [Nat.zero_mul, Nat.zero_add, List.drop_zero, List.take_take] at hc
    rw [if_pos hj, if_pos (by omega), hcell k j hk hj, hc,
      Nat.min_eq_left (by omega)]
  · rw [if_neg hj, if_neg (by omega)]

/-- The burn-in loop when the noise runs out before its last pass: the run stops at the
read just past the end of the noise, nothing written. -/
theorem burn_fault (c : Nat) : ∀ (i : Nat) (x : α) (m : Mem α), m.e ≤ noise.length →
    noise.length < m.e + c →
    forLoop (burnStep exp log_r sig_e noise) c i ⟨x, m⟩ =
      .error (.read .e noise.length, ⟨noise.length, m.n, m.out⟩) := by
  induction c with
  | zero => intro i x m h1 h2; omega
  | succ k ih =>
    intro i x m h1 h2
    by_cases hm : m.e = noise.length
    · have hl : load .e noise m.e = .error (.read .e m.e) := by
        simp [load, List.getElem?_eq_none (Nat.le_of_eq hm.symm)]
      simp only [forLoop, burnStep, hl]
      rw [hm]
      cases m
      simp_all
    · have hl : load .e noise m.e = .ok noise[m.e] :=
        load_ok _ _ _ _ (List.getElem?_eq_getElem (by omega))
      simp only [forLoop, burnStep, hl]
      exact ih (i + 1) _ ⟨m.e + 1, m.n, m.out⟩ (by simp; omega) (by simp; omega)

/-- A pass of the recording loop with the noise pointer at the end of the noise stops
at that read. -/
theorem record_fault_now (c i : Nat) (x : α) (m : Mem α) (hm : m.e = noise.length) :
    forLoop (recordStep exp log_r sig_e noise) (c + 1) i ⟨x, m⟩ =
      .error (.read .e noise.length, m) := by
  have hl : load .e noise m.e = .error (.read .e m.e) := by
    simp [load, List.getElem?_eq_none (Nat.le_of_eq hm.symm)]
  simp only [forLoop, recordStep, hl]
  rw [hm]

/-- The recording loop when the noise runs out before its last pass: the passes whose
noise value exists are carried out and written, then the run stops at the read just past
the end of the noise. -/
theorem record_fault (c i : Nat) (x : α) (m : Mem α) (h1 : m.e ≤ noise.length)
    (h2 : noise.length < m.e + c) (hn : m.n + c ≤ m.out.length) :
    ∃ out1, forLoop (recordStep exp log_r sig_e noise) c i ⟨x, m⟩ =
        .error (.read .e noise.length,
          ⟨noise.length, m.n + (noise.length - m.e), out1⟩) ∧
      out1.length = m.out.length ∧
      ∀ j, out1[j]? = if m.n ≤ j ∧ j < m.n + (noise.length - m.e) then
          some (((noise.drop m.e).take (j - m.n + 1)).foldl (rickerUpdate exp log_r sig_e) x)
        else m.out[j]? := by
  obtain ⟨c2, rfl⟩ : ∃ c2, c = (noise.length - m.e) + (c2 + 1) :=
    ⟨c - (noise.length - m.e) - 1, by omega⟩
  obtain ⟨out1, hrun, hlen, hval⟩ := record_ok exp log_r sig_e noise (noise.length - m.e) i x m
    (by omega) (by omega)
  refine ⟨out1, ?_, hlen, hval⟩
  rw [forLoop_add, hrun]
  simp only
  rw [record_fault_now exp log_r sig_e noise c2 _ _ _ (by simp only; omega)]
  congr 3
  omega

/-- One replication when the noise runs out inside it: the run stops at the read just
past the end of the noise; the recording passes before that have been written. -/
theorem replication_fault (n0 : α) (b h j : Nat) (m : Mem α) (h1 : m.e ≤ noise.length)
    (h2 : noise.length < m.e + (b + h)) (hn : m.n + h ≤ m.out.length) :
    ∃ m1, replication exp log_r sig_e noise b h n0 j m =
        .error (.read .e noise.length, m1) ∧
      m1.e = noise.length ∧ m1.out.length = m.out.length ∧
      ∀ idx, m1.out[idx]? = if m.n ≤ idx ∧ idx < m.n + (noise.length - m.e - b) then
          some (((noise.drop m.e).take (b + (idx - m.n) + 1)).foldl
            (rickerUpdate exp log_r sig_e) n0)
        else m.out[idx]? := by
  by_cases hb : noise.length < m.e + b
  · refine ⟨⟨noise.length, m.n, m.out⟩, ?_, rfl, rfl, ?_⟩
    · simp only [replication, Int.toNat_ofNat,
        burn_fault exp log_r sig_e noise b 0 n0 m h1 hb]
    · intro idx
      rw [if_neg (by omega)]
  · obtain ⟨out1, hrun, hlen, hval⟩ := record_fault exp log_r sig_e noise h 0
      (((noise.drop m.e).take b).foldl (rickerUpdate exp log_r sig_e) n0)
      ⟨m.e + b, m.n, m.out⟩ (by simp only; omega) (by simp only; omega) (by simpa using hn)
    refine ⟨⟨noise.length, m.n + (noise.length - (m.e + b)), out1⟩, ?_, rfl, hlen, ?_⟩
    · simp only [replication, Int.toNat_ofNat,
        burn_ok exp log_r sig_e noise b 0 n0 m (by omega), hrun]
    · intro idx
      rw [hval idx]
      simp only [foldl_take_add, Nat.add_assoc, Nat.sub_sub]

/-- The loops of `ricker` when the noise runs out in replication `q`: the run stops at
the read just past the end of the noise, and every recording pass whose noise value
exists has been carried out and written to its cell. -/
theorem rickerLoop_fault (n : List α) (n0 : α) (b h R q : Nat)
    (hq1 : q * (b + h) ≤ noise.length) (hq2 : noise.length < (q + 1) * (b + h))
    (hR : noise.length < R * (b + h)) (hn : R * h ≤ n.length) :
    ∃ m1, rickerLoop exp log_r sig_e n noise b h R n0 = .error (.read .e noise.length, m1) ∧
      m1.e = noise.length ∧ m1.out.length = n.length ∧
      ∀ k i, i < h → k * (b + h) + b + i < noise.length → m1.out[k * h + i]? =
        some (((noise.drop (k * (b + h))).take (b + i + 1)).foldl
          (rickerUpdate exp log_r sig_e) n0) := by
  have hqR : q < R := by
    by_contra hc
    have := Nat.mul_le_mul_right (b + h) (Nat.le_of_not_lt hc)
    omega
  obtain ⟨r, rfl⟩ : ∃ r, R = q + (r + 1) := ⟨R - q - 1, by omega⟩
  have e1 : (q + 1) * (b + h) = q * (b + h) + (b + h) := Nat.succ_mul _ _
  have e2 : (q + (r + 1)) * h = q * h + r * h + h := by
    rw [Nat.add_mul, Nat.succ_mul]; omega
  obtain ⟨out, hrun, hlen, hcell, -⟩ := rickerLoop_cells exp log_r sig_e noise n n0 b h q
    hq1 (by omega)
  simp only [rickerLoop, Int.toNat_ofNat] at hrun
  obtain ⟨m1, hf, hme, hml, hval⟩ := replication_fault exp log_r sig_e noise n0 b h (0 + q)
    ⟨q * (b + h), q * h, out⟩ hq1 (by simp only; omega) (by simp only; omega)
  simp only at hml hval
  refine ⟨m1, ?_, hme, by omega, ?_⟩
  · simp only [rickerLoop, Int.toNat_ofNat]
    rw [forLoop_add, hrun]
    simp only [forLoop, hf]
  · intro k i hi hk
    have hkq : k ≤ q := by
      by_contra hc
      have : (q + 1) * (b + h) ≤ k * (b + h) := Nat.mul_le_mul_right _ (by omega)
      omega
    rw [hval (k * h + i)]
    by_cases hlt : k < q
    · have h3 : (k + 1) * h ≤ q * h := Nat.mul_le_mul_right _ hlt
      have h4 : (k + 1) * h = k * h + h := Nat.succ_mul _ _
      rw [if_neg (by omega)]
      exact hcell k i hlt hi
    · obtain rfl : k = q := by omega
      rw [if_pos (by omega), Nat.add_sub_cancel_left]

end RickerProofs

section RickerClaims

variable {α : Type} [Ring α]
variable (exp : α → α) (log_r sig_e : α)

/-- C2. With `step x v = x + log_r - exp x + v * sig_e` (`specStep`), for all naturals
`R`, `b`, `h`, every `x0`, every noise `e` of length at least `R * (b + h)` and every output
buffer `n` with room for `R * h` values, the loops of `ricker` end without fault and, for
`k < R` and `i < h`, cell `k * h + i` of the output holds `step` folded from `x0` over
`e[k*(b+h)], ..., e[k*(b+h) + b + i]` (`b + i + 1` updates).  Exactly the `R * h` cells
`k * h + i` are written, so neither `x0` nor a burn-in iterate is: the output pointer
ends at `R * h` and the cells from there on keep their contents. -/
theorem ricker_reference_semantics (n e : List α) (x0 : α) (b h R : Nat)
    (he : R * (b + h) ≤ e.length) (hn : R * h ≤ n.length) :
    ∃ fin, rickerLoop exp log_r sig_e n e b h R x0 = .ok fin ∧
      (∀ k i, k < R → i < h → fin.out[k * h + i]? =
        some (((e.drop (k * (b + h))).take (b + i + 1)).foldl
          (specStep exp log_r sig_e) x0)) ∧
      fin.n = R * h ∧ fin.out.length = n.length ∧
      ∀ idx, R * h ≤ idx → fin.out[idx]? = n[idx]? := by
  obtain ⟨out, hrun, hlen, hcell, hrest⟩ :=
    rickerLoop_cells exp log_r sig_e e n x0 b h R he hn
  rw [specStep_eq_rickerUpdate]
  exact ⟨_, hrun, hcell, rfl, hlen, hrest⟩

/-- Witness of C2 over the reals with the real exponential: two replications, one
burn-in step and one recorded step each. -/
theorem ricker_reference_semantics_witness :
    2 * (1 + 1) ≤ ([1, 2, 3, 4] : List ℝ).length ∧ 2 * 1 ≤ ([0, 0] : List ℝ).length ∧
    ∃ fin, rickerLoop Real.exp 3 2 ([0, 0] : List ℝ) [1, 2, 3, 4]
        (1 : ℕ) (1 : ℕ) (2 : ℕ) 5 = .ok fin ∧
      (∀ k i, k < 2 → i < 1 → fin.out[k * 1 + i]? =
        some (((([1, 2, 3, 4] : List ℝ).drop (k * (1 + 1))).take (1 + i + 1)).foldl
          (specStep Real.exp 3 2) 5)) ∧
      fin.n = 2 * 1 ∧ fin.out.length = ([0, 0] : List ℝ).length ∧
      ∀ idx, 2 * 1 ≤ idx → fin.out[idx]? = ([0, 0] : List ℝ)[idx]? :=
  ⟨by simp, by simp,
    ricker_reference_semantics Real.exp 3 2 [0, 0] [1, 2, 3, 4] 5 1 1 2 (by simp) (by simp)⟩

/-- C3. For all naturals `R`, `b`, `h`, every noise `e` of length at least `R * (b + h)`
and every output buffer `n` with room for `R * h` values, the loops of `ricker` end
without fault having written exactly `R * h` output values: the output pointer has moved
by `R * h`, the output sequence has length `R * h`, and the buffer is unchanged from cell
`R * h` on.  When `R = 0` or `h = 0` the output sequence is empty and the buffer
unchanged. -/
theorem ricker_output_length (n e : List α) (x0 : α) (b h R : Nat)
    (he : R * (b + h) ≤ e.length) (hn : R * h ≤ n.length) :
    ∃ fin, rickerLoop exp log_r sig_e n e b h R x0 = .ok fin ∧
      fin.n = R * h ∧ fin.written.length = R * h ∧
      fin.out.drop (R * h) = n.drop (R * h) ∧
      (R = 0 ∨ h = 0 → fin.written = [] ∧ fin.out = n) := by
  obtain ⟨out, hrun, hlen, -, hrest⟩ :=
    rickerLoop_cells exp log_r sig_e e n x0 b h R he hn
  have hdrop : out.drop (R * h) = n.drop (R * h) := by
    apply List.ext_getElem?
    intro j
    rw [List.getElem?_drop, List.getElem?_drop, hrest _ (by omega)]
  refine ⟨_, hrun, rfl, ?_, hdrop, ?_⟩
  · simp only [Mem.written, List.length_take]
    omega
  · intro h0
    have hz : R * h = 0 := by
      rcases h0 with h0 | h0 <;> simp [h0]
    rw [hz] at hdrop
    simp only [Mem.written, hz, List.take_zero, true_and]
    simpa using hdrop

/-- Witness of C3: three replications with horizon zero consume noise and write
nothing. -/
theorem ricker_output_length_witness :
    3 * (2 + 0) ≤ ([1, 2, 3, 4, 5, 6] : List ℝ).length ∧ 3 * 0 ≤ ([] : List ℝ).length ∧
    ∃ fin, rickerLoop Real.exp 3 2 ([] : List ℝ) [1, 2, 3, 4, 5, 6]
        (2 : ℕ) (0 : ℕ) (3 : ℕ) 5 = .ok fin ∧
      fin.n = 3 * 0 ∧ fin.written.length = 3 * 0 ∧
      fin.out.drop (3 * 0) = ([] : List ℝ).drop (3 * 0) ∧
      (3 = 0 ∨ 0 = 0 → fin.written = [] ∧ fin.out = []) :=
  ⟨by simp, by simp,
    ricker_output_length Real.exp 3 2 [] [1, 2, 3, 4, 5, 6] 5 2 0 3 (by simp) (by simp)⟩

/-- C4. For all naturals `R`, `b`, `h`, all parameters, every noise `e` of length at
least `R * (b + h)` and every `k < R`: cells `[k*h, (k+1)*h)` of the output of the run
with `R` replications on `e` are the output of the run with one replication on the noise
slice `[k*(b+h), (k+1)*(b+h))`.  Hence with two replications, exchanging the first
`b + h` noise values for any others leaves cells `[h, 2*h)` of the output as they are. -/
theorem ricker_noise_partition (n n1 e : List α) (x0 : α) (b h R k : Nat)
    (he : R * (b + h) ≤ e.length) (hn : R * h ≤ n.length) (hn1 : h ≤ n1.length)
    (hk : k < R) :
    (∃ fin fin1, rickerLoop exp log_r sig_e n e b h R x0 = .ok fin ∧
      rickerLoop exp log_r sig_e n1 ((e.drop (k * (b + h))).take (b + h)) b h (1 : ℕ) x0
        = .ok fin1 ∧
      (fin.out.drop (k * h)).take h = fin1.written) ∧
    ∀ p q rest n2 : List α, p.length = b + h → q.length = b + h → b + h ≤ rest.length →
      2 * h ≤ n2.length →
      ∃ f1 f2, rickerLoop exp log_r sig_e n2 (p ++ rest) b h (2 : ℕ) x0 = .ok f1 ∧
        rickerLoop exp log_r sig_e n2 (q ++ rest) b h (2 : ℕ) x0 = .ok f2 ∧
        (f1.out.drop h).take h = (f2.out.drop h).take h := by
  refine ⟨rickerLoop_slice exp log_r sig_e e n n1 x0 b h R k he hn hn1 hk, ?_⟩
  intro p q rest n2 hp hq hr hn2
  obtain ⟨f1, g1, hf1, hg1, e1⟩ := rickerLoop_slice exp log_r sig_e (p ++ rest) n2 n2 x0
    b h 2 1 (by simp only [List.length_append]; omega) hn2 (by omega) (by omega)
  obtain ⟨f2, g2, hf2, hg2, e2⟩ := rickerLoop_slice exp log_r sig_e (q ++ rest) n2 n2 x0
    b h 2 1 (by simp only [List.length_append]; omega) hn2 (by omega) (by omega)
  rw [Nat.one_mul, List.drop_left' hp] at hg1
  rw [Nat.one_mul, List.drop_left' hq, hg1] at hg2
  rw [Nat.one_mul] at e1 e2
  have hg : g1 = g2 := by injection hg2
  exact ⟨f1, f2, hf1, hf2, by rw [e1, e2, hg]⟩

/-- Witness of C4: the second of two replications against a run of one replication on
the second block of the noise. -/
theorem ricker_noise_partition_witness :
    (2 * (1 + 1) ≤ ([1, 2, 3, 4] : List ℝ).length ∧ 2 * 1 ≤ ([0, 0] : List ℝ).length ∧
      1 ≤ ([9] : List ℝ).length ∧ 1 < 2) ∧
    ((∃ fin fin1, rickerLoop Real.exp 3 2 ([0, 0] : List ℝ) [1, 2, 3, 4]
          (1 : ℕ) (1 : ℕ) (2 : ℕ) 5 = .ok fin ∧
        rickerLoop Real.exp 3 2 ([9] : List ℝ)
          ((([1, 2, 3, 4] : List ℝ).drop (1 * (1 + 1))).take (1 + 1))
          (1 : ℕ) (1 : ℕ) (1 : ℕ) 5 = .ok fin1 ∧
        (fin.out.drop (1 * 1)).take 1 = fin1.written) ∧
      ∀ p q rest n2 : List ℝ, p.length = 1 + 1 → q.length = 1 + 1 → 1 + 1 ≤ rest.length →
        2 * 1 ≤ n2.length →
        ∃ f1 f2, rickerLoop Real.exp 3 2 n2 (p ++ rest) (1 : ℕ) (1 : ℕ) (2 : ℕ) 5 = .ok f1 ∧
          rickerLoop Real.exp 3 2 n2 (q ++ rest) (1 : ℕ) (1 : ℕ) (2 : ℕ) 5 = .ok f2 ∧
          (f1.out.drop 1).take 1 = (f2.out.drop 1).take 1) :=
  ⟨⟨by simp, by simp, by simp, by decide⟩,
    ricker_noise_partition Real.exp 3 2 [0, 0] [9] [1, 2, 3, 4] 5 1 1 2 1
      (by simp) (by simp) (by simp) (by decide)⟩

/-- C9, counterexample.  One replication, no burn-in, two steps to record and a single
noise value: `ricker` raises no error at entry.  It carries out the first step, writes
`4` to output cell `0`, and only then stops, at the read of noise index `1`, past the end
of the noise; the output buffer is no longer what it was. -/
theorem ricker_insufficient_noise_counterexample :
    ([1] : List ℝ).length < 1 * (0 + 2) ∧
    rickerLoop Real.exp 3 2 ([0, 0] : List ℝ) [1] 0 2 1 0
      = .error (.read .e 1, ⟨1, 1, [4, 0]⟩) ∧
    ([4, 0] : List ℝ) ≠ [0, 0] := by
  refine ⟨by simp, ?_, by simp⟩
  have h2 : (2 : ℤ).toNat = 2 := rfl
  have h1 : (1 : ℤ).toNat = 1 := rfl
  have h0 : (0 : ℤ).toNat = 0 := rfl
  simp only [rickerLoop, forLoop, replication, recordStep, load, store, rickerUpdate,
    h0, h1, h2]
  norm_num

/-- C9, amended.  For naturals `R`, `b`, `h`, a noise `e` with fewer than `R * (b + h)`
values and an output buffer with room for `R * h` values, the loops of `ricker` do not
end normally and make no check beforehand: every update whose noise value exists is
carried out in order, each recording step `i` of replication `k` among them is written to
cell `k * h + i`, and the run stops at the read of noise index `length e`. -/
theorem ricker_insufficient_noise (n e : List α) (x0 : α) (b h R : Nat)
    (hlt : e.length < R * (b + h)) (hn : R * h ≤ n.length) :
    ∃ m, rickerLoop exp log_r sig_e n e b h R x0 = .error (.read .e e.length, m) ∧
      m.e = e.length ∧ m.out.length = n.length ∧
      ∀ k i, i < h → k * (b + h) + b + i < e.length → m.out[k * h + i]? =
        some (((e.drop (k * (b + h))).take (b + i + 1)).foldl
          (specStep exp log_r sig_e) x0) := by
  have hpos : 0 < b + h := by
    rcases Nat.eq_zero_or_pos (b + h) with h0 | h0
    · rw [h0] at hlt; omega
    · exact h0
  have hdm := Nat.div_add_mod e.length (b + h)
  have hmod := Nat.mod_lt e.length hpos
  rw [Nat.mul_comm] at hdm
  rw [specStep_eq_rickerUpdate]
  exact rickerLoop_fault exp log_r sig_e e n x0 b h R (e.length / (b + h))
    (by omega) (by rw [Nat.succ_mul]; omega) hlt hn

/-- Witness of C9 (amended): two replications of one burn-in and one recorded step, with
three noise values. -/
theorem ricker_insufficient_noise_witness :
    ([1, 2, 3] : List ℝ).length < 2 * (1 + 1) ∧ 2 * 1 ≤ ([0, 0] : List ℝ).length ∧
    ∃ m, rickerLoop Real.exp 3 2 ([0, 0] : List ℝ) [1, 2, 3] (1 : ℕ) (1 : ℕ) (2 : ℕ) 5
        = .error (.read .e ([1, 2, 3] : List ℝ).length, m) ∧
      m.e = ([1, 2, 3] : List ℝ).length ∧ m.out.length = ([0, 0] : List ℝ).length ∧
      ∀ k i, i < 1 → k * (1 + 1) + 1 + i < ([1, 2, 3] : List ℝ).length → m.out[k * 1 + i]? =
        some (((([1, 2, 3] : List ℝ).drop (k * (1 + 1))).take (1 + i + 1)).foldl
          (specStep Real.exp 3 2) 5) :=
  ⟨by simp, by simp,
    ricker_insufficient_noise Real.exp 3 2 [0, 0] [1, 2, 3] 5 1 1 2 (by simp) (by simp)⟩

/-- C10, counterexample.  With `n_reps = 0` the loops of `ricker` return normally (no
error), and so they do with `burn_in = -1`, there after writing an output value. -/
theorem ricker_invalid_lengths_counterexample :
    rickerLoop Real.exp 3 2 ([0] : List ℝ) [1] 0 1 0 0 = .ok ⟨0, 0, [0]⟩ ∧
    rickerLoop Real.exp 3 2 ([0] : List ℝ) [1] (-1) 1 1 0 = .ok ⟨1, 1, [4]⟩ := by
  have hm : (-1 : ℤ).toNat = 0 := rfl
  have h1 : (1 : ℤ).toNat = 1 := rfl
  have h0 : (0 : ℤ).toNat = 0 := rfl
  constructor
  · simp only [rickerLoop, forLoop, h0]
  · simp only [rickerLoop, forLoop, replication, recordStep, load, store, rickerUpdate,
      hm, h1]
    norm_num

/-- C10, amended.  The loops of `ricker` reject no length.  A negative `burn_in` or
`n_t` acts as `0` and a negative `n_reps` as `0`: the loop concerned is not entered.
With `n_reps ≤ 0` the loops end at once and normally, no noise read and no output
written. -/
theorem ricker_invalid_lengths (n e : List α) (x0 : α) (b h R : Int) :
    rickerLoop exp log_r sig_e n e b h R x0 =
      rickerLoop exp log_r sig_e n e (max b 0) (max h 0) (max R 0) x0 ∧
    (R ≤ 0 → rickerLoop exp log_r sig_e n e b h R x0 = .ok ⟨0, 0, n⟩) := by
  have hb : (max b 0).toNat = b.toNat := by omega
  have hh : (max h 0).toNat = h.toNat := by omega
  have hR : (max R 0).toNat = R.toNat := by omega
  have hrep : replication exp log_r sig_e e (max b 0) (max h 0) x0 =
      replication exp log_r sig_e e b h x0 := by
    funext j m
    simp only [replication, hb, hh]
  refine ⟨by simp only [rickerLoop, hrep, hR], ?_⟩
  intro hle
  have hz : R.toNat = 0 := by omega
  simp only [rickerLoop, hz, forLoop]

/-- Witness of C10 (amended): all three lengths negative. -/
theorem ricker_invalid_lengths_witness :
    (-3 : ℤ) ≤ 0 ∧
    rickerLoop Real.exp 3 2 ([0] : List ℝ) [1] (-1) (-2) (-3) 0 = .ok ⟨0, 0, [0]⟩ :=
  ⟨by decide, (ricker_invalid_lengths Real.exp 3 2 [0] [1] 0 (-1) (-2) (-3)).2 (by decide)⟩

end RickerClaims

section SmootherFurther

variable {α : Type} [Ring α]

/-- The recurrence value at index `i` only depends on `y[0], ..., y[i]`. -/
theorem smoothAt_congr (y y2 : List α) (a : α) (i : Nat)
    (h : ∀ j, j ≤ i → y2.getD j 0 = y.getD j 0) : smoothAt y2 a i = smoothAt y a i := by
  induction i with
  | zero => simpa [smoothAt] using h 0 (le_refl 0)
  | succ k ih =>
    simp only [smoothAt]
    rw [ih (fun j hj => h j (by omega)), h (k + 1) (le_refl _)]

theorem getD_take_of_lt (y : List α) (k j : Nat) (h : j < k) :
    (y.take k).getD j 0 = y.getD j 0 := by
  simp [List.getD_eq_getElem?_getD, List.getElem?_take, h]

/-- On a non-empty input `expSmoothRcpp_manual` returns the smoothed sequence. -/
theorem expSmoothRcpp_manual_eq (y : List α) (a : α) (hy : 1 ≤ y.length) :
    expSmoothRcpp_manual y a = .ok (smoothSeq y a) := by
  have hl : load .y y 0 = .ok y[0] := load_ok _ _ _ _ (List.getElem?_eq_getElem hy)
  have hs := store_ok .ys (List.replicate y.length (0 : α)) 0 y[0] (by simpa using hy)
  have hn : ((y.length : Int) - 1).toNat = y.length - 1 := by omega
  simp only [expSmoothRcpp_manual, Int.toNat_ofNat, hl, hs, hn]
  exact smoothLoop_ok y a _ hy (by simp) (by
    rw [List.getElem?_set_self (by simpa using hy), List.getElem?_eq_getElem hy])

/-- A pass of the loop of `expSmooth` is a pass of the smoothing loop on `ys`, with `y`
left as it is. -/
theorem expSmoothStep_eq (y : List α) (a : α) (i : Nat) (ys : List α) :
    expSmoothStep a i ⟨y, ys⟩ =
      match smoothStep y a i ys with
      | .ok ys1 => .ok ⟨y, ys1⟩
      | .error f => .error f := by
  simp only [expSmoothStep, smoothStep]
  cases h1 : load .ys ys (i - 1) with
  | error f => rfl
  | ok p =>
    cases h2 : load .y y i with
    | error f => rfl
    | ok yi =>
      simp only
      cases h3 : store .ys ys i (a * p + (1 - a) * yi) with
      | error f => rfl
      | ok ys1 => rfl

/-- The loop of `expSmooth` on the memory of both vectors is the smoothing loop on `ys`,
with `y` left as it is. -/
theorem forLoop_expSmoothStep (y : List α) (a : α) (c : Nat) : ∀ (i : Nat) (ys : List α),
    forLoop (expSmoothStep a) c i ⟨y, ys⟩ =
      match forLoop (smoothStep y a) c i ys with
      | .ok ys1 => .ok ⟨y, ys1⟩
      | .error f => .error f := by
  induction c with
  | zero => intro i ys; rfl
  | succ k ih =>
    intro i ys
    simp only [forLoop, expSmoothStep_eq]
    cases h : smoothStep y a i ys with
    | error f => rfl
    | ok ys1 => exact ih (i + 1) ys1

/-- Called with `n` holding the length of a non-empty `y`, and a buffer `ys` of that
length, `expSmooth` leaves the smoothed sequence in `ys` and `y` as it was. -/
theorem expSmooth_eq (y ys : List α) (a : α) (hy : 1 ≤ y.length)
    (hys : ys.length = y.length) :
    expSmooth y ys [(y.length : Int)] [a] = .ok ⟨y, smoothSeq y a⟩ := by
  have hni : load .n [(y.length : Int)] 0 = .ok (y.length : Int) := load_ok _ _ _ _ rfl
  have ha : load .a [a] 0 = .ok a := load_ok _ _ _ _ rfl
  have hl : load .y y 0 = .ok y[0] := load_ok _ _ _ _ (List.getElem?_eq_getElem hy)
  have hs := store_ok .ys ys 0 y[0] (by omega)
  have hn : ((y.length : Int) - 1).toNat = y.length - 1 := by omega
  simp only [expSmooth, hni, ha, hl, hs, hn]
  rw [forLoop_expSmoothStep, smoothLoop_ok y a _ hy (by simpa using hys) (by
    rw [List.getElem?_set_self (by omega), List.getElem?_eq_getElem hy])]

end SmootherFurther

section SmootherAlgebra

variable {α : Type} [CommRing α]

/-- The weights of the closed form sum to one. -/
theorem smooth_weights_sum (a : α) (i : Nat) :
    a ^ i + ∑ j ∈ Finset.Icc 1 i, (1 - a) * a ^ (i - j) = 1 := by
  induction i with
  | zero => simp
  | succ k ih =>
    rw [Finset.sum_Icc_succ_top (by omega)]
    have hc : ∑ j ∈ Finset.Icc 1 k, (1 - a) * a ^ (k + 1 - j) =
        a * ∑ j ∈ Finset.Icc 1 k, (1 - a) * a ^ (k - j) := by
      rw [Finset.mul_sum]
      apply Finset.sum_congr rfl
      intro j hj
      have hjk : j ≤ k := (Finset.mem_Icc.1 hj).2
      rw [Nat.succ_sub hjk, pow_succ]
      ring
    rw [hc, Nat.sub_self, pow_zero, pow_succ]
    have : a ^ k * a + a * ∑ j ∈ Finset.Icc 1 k, (1 - a) * a ^ (k - j) + (1 - a) * 1 =
        a * (a ^ k + ∑ j ∈ Finset.Icc 1 k, (1 - a) * a ^ (k - j)) + (1 - a) := by ring
    rw [← add_assoc, this, ih]
    ring

/-- The recurrence solved: geometrically decaying weights on `y[0], ..., y[i]`. -/
theorem smoothAt_closed (y : List α) (a : α) (i : Nat) :
    smoothAt y a i = a ^ i * y.getD 0 0 +
      (1 - a) * ∑ j ∈ Finset.Icc 1 i, a ^ (i - j) * y.getD j 0 := by
  induction i with
  | zero => simp [smoothAt]
  | succ k ih =>
    rw [Finset.sum_Icc_succ_top (by omega)]
    have hc : ∑ j ∈ Finset.Icc 1 k, a ^ (k + 1 - j) * y.getD j 0 =
        a * ∑ j ∈ Finset.Icc 1 k, a ^ (k - j) * y.getD j 0 := by
      rw [Finset.mul_sum]
      apply Finset.sum_congr rfl
      intro j hj
      have hjk : j ≤ k := (Finset.mem_Icc.1 hj).2
      rw [Nat.succ_sub hjk, pow_succ]
      ring
    rw [hc, Nat.sub_self, pow_zero, pow_succ]
    simp only [smoothAt]
    rw [ih]
    ring

end SmootherAlgebra

section SmootherOrder

variable {α : Type} [LinearOrderedCommRing α]

/-- For `0 ≤ a ≤ 1` the recurrence value at `i` lies between the least and the greatest
of `y[0], ..., y[i]`. -/
theorem smoothAt_mem_range (y : List α) (a : α) (h0 : 0 ≤ a) (h1 : a ≤ 1) (i : Nat) :
    runMin y i ≤ smoothAt y a i ∧ smoothAt y a i ≤ runMax y i := by
  induction i with
  | zero => exact ⟨le_refl _, le_refl _⟩
  | succ k ih =>
    obtain ⟨hlo, hhi⟩ := ih
    simp only [smoothAt, runMin, runMax]
    have ha : 0 ≤ 1 - a := sub_nonneg.2 h1
    constructor
    · have e1 : min (runMin y k) (y.getD (k + 1) 0) ≤ smoothAt y a k :=
        le_trans (min_le_left _ _) hlo
      have e2 : min (runMin y k) (y.getD (k + 1) 0) ≤ y.getD (k + 1) 0 := min_le_right _ _
      have p1 := mul_le_mul_of_nonneg_left e1 h0
      have p2 := mul_le_mul_of_nonneg_left e2 ha
      have e3 : min (runMin y k) (y.getD (k + 1) 0) =
          a * min (runMin y k) (y.getD (k + 1) 0) +
            (1 - a) * min (runMin y k) (y.getD (k + 1) 0) := by ring
      rw [e3]
      exact add_le_add p1 p2
    · have e1 : smoothAt y a k ≤ max (runMax y k) (y.getD (k + 1) 0) :=
        le_trans hhi (le_max_left _ _)
      have e2 : y.getD (k + 1) 0 ≤ max (runMax y k) (y.getD (k + 1) 0) := le_max_right _ _
      have p1 := mul_le_mul_of_nonneg_left e1 h0
      have p2 := mul_le_mul_of_nonneg_left e2 ha
      have e3 : max (runMax y k) (y.getD (k + 1) 0) =
          a * max (runMax y k) (y.getD (k + 1) 0) +
            (1 - a) * max (runMax y k) (y.getD (k + 1) 0) := by ring
      rw [e3]
      exact add_le_add p1 p2

/-- The least and the greatest of the first entries of a sequence whose entries are
all `c`. -/
theorem runMin_runMax_const (y : List α) (c : α) (i : Nat)
    (hc : ∀ j, j ≤ i → y.getD j 0 = c) : runMin y i = c ∧ runMax y i = c := by
  induction i with
  | zero => exact ⟨hc 0 (le_refl 0), hc 0 (le_refl 0)⟩
  | succ k ih =>
    obtain ⟨h1, h2⟩ := ih (fun j hj => hc j (by omega))
    simp only [runMin, runMax, h1, h2, hc (k + 1) (le_refl _), min_self, max_self,
      and_self]

end SmootherOrder

section RickerFurther

variable {α : Type} [Ring α]
variable (exp : α → α) (log_r sig_e : α)

/-- With `sig_e = 0` the iterate reached only depends on the number of noise values
consumed. -/
theorem foldl_zero_scale (l1 : List α) : ∀ (l2 : List α) (x : α), l1.length = l2.length →
    l1.foldl (rickerUpdate exp log_r 0) x = l2.foldl (rickerUpdate exp log_r 0) x := by
  induction l1 with
  | nil =>
    intro l2 x h
    cases l2 with
    | nil => rfl
    | cons v l => simp at h
  | cons u l ih =>
    intro l2 x h
    cases l2 with
    | nil => simp at h
    | cons v l3 =>
      simp only [List.foldl_cons]
      have hu : rickerUpdate exp log_r 0 x u = rickerUpdate exp log_r 0 x v := by
        simp [rickerUpdate]
      rw [hu]
      exact ih l3 _ (by simpa using h)

theorem length_block {β : Type} (e : List β) (b h R k i : Nat) (he : R * (b + h) ≤ e.length)
    (hk : k < R) (hi : i < h) :
    ((e.drop (k * (b + h))).take (b + i + 1)).length = b + i + 1 := by
  have h1 : (k + 1) * (b + h) ≤ R * (b + h) := Nat.mul_le_mul_right _ hk
  have h2 : (k + 1) * (b + h) = k * (b + h) + (b + h) := Nat.succ_mul _ _
  simp only [List.length_take, List.length_drop]
  omega

/-- A pass of the burn-in loop that does not fault has read inside the noise, moved the
noise pointer by one and left the output alone. -/
theorem burnStep_ok_bounds (noise : List α) (i : Nat) (s s1 : Traj α)
    (h : burnStep exp log_r sig_e noise i s = .ok s1) :
    s.m.e < noise.length ∧ s1.m.e = s.m.e + 1 ∧ s1.m.n = s.m.n ∧ s1.m.out = s.m.out := by
  simp only [burnStep, load] at h
  cases hv : noise[s.m.e]? with
  | none => simp [hv] at h
  | some v =>
    simp only [hv] at h
    injection h with h
    subst h
    exact ⟨(List.getElem?_eq_some_iff.1 hv).1, rfl, rfl, rfl⟩

/-- A pass of the recording loop that does not fault has read inside the noise and
written inside the output buffer, and moved both pointers by one. -/
theorem recordStep_ok_bounds (noise : List α) (i : Nat) (s s1 : Traj α)
    (h : recordStep exp log_r sig_e noise i s = .ok s1) :
    s.m.e < noise.length ∧ s.m.n < s.m.out.length ∧
      s1.m.e = s.m.e + 1 ∧ s1.m.n = s.m.n + 1 := by
  simp only [recordStep, load, store] at h
  cases hv : noise[s.m.e]? with
  | none => simp [hv] at h
  | some v =>
    simp only [hv] at h
    by_cases hw : s.m.n < s.m.out.length
    · simp only [hw, if_true] at h
      injection h with h
      subst h
      exact ⟨(List.getElem?_eq_some_iff.1 hv).1, hw, rfl, rfl⟩
    · simp [hw] at h

end RickerFurther

section DotProofs

variable {α : Type} [Ring α]

theorem sum_map_range (f : Nat → α) (n : Nat) :
    ((List.range n).map f).sum = ∑ i ∈ Finset.range n, f i := by
  induction n with
  | zero => simp
  | succ k ih => simp [List.range_succ, Finset.sum_range_succ, ih]

/-- The `sum` of the sugar expression `x1 * x2`, for `x2` at least as long as `x1`. -/
theorem sugarSum_ok (x1 x2 : List α) (hlen : x1.length ≤ x2.length) :
    forLoop (sugarSumStep x1 x2) x1.length 0 0 =
      .ok (∑ i ∈ Finset.range x1.length, x1.getD i 0 * x2.getD i 0) := by
  obtain ⟨r, hrun, hr⟩ := forLoop_inv (sugarSumStep x1 x2)
    (fun i acc => acc = ∑ j ∈ Finset.range i, x1.getD j 0 * x2.getD j 0) x1.length
    (by
      intro i acc hi hacc
      have h1 : load .x1 x1 i = .ok (x1.getD i 0) := load_ok _ _ _ _ (by
        rw [List.getD_eq_getElem?_getD, List.getElem?_eq_getElem hi]; rfl)
      have h2 : load .x2 x2 i = .ok (x2.getD i 0) := load_ok _ _ _ _ (by
        rw [List.getD_eq_getElem?_getD, List.getElem?_eq_getElem (by omega)]; rfl)
      refine ⟨acc + x1.getD i 0 * x2.getD i 0, by simp only [sugarSumStep, h1, h2], ?_⟩
      show acc + x1.getD i 0 * x2.getD i 0 =
        ∑ j ∈ Finset.range (i + 1), x1.getD j 0 * x2.getD j 0
      rw [Finset.sum_range_succ, hacc])
    x1.length 0 0 (by omega) (by simp)
  rw [hrun, hr]

/-- The Armadillo expression `as_scalar(x1.t() * x2)` on vectors of equal length. -/
theorem arma_dot (x1 x2 : List α) (hlen : x1.length = x2.length) :
    Mat.mul (Mat.ofVec x1).t (Mat.ofVec x2) =
      some ⟨1, 1, fun _ _ => ((List.range x1.length).map
        (fun l => x1.getD l 0 * x2.getD l 0)).sum⟩ := by
  simp [Mat.mul, Mat.t, Mat.ofVec, hlen]

end DotProofs

section FurtherClaims

/-- C11. `ricker` does not take `log_r` and `sig_e` from `theta`: with `theta = [7, 7]`
the recorded value is `4` when the memory behind the unassigned pointer `th_i` holds
`3, 2` and `6` when it holds `5, 2`, where `theta[0]`, `theta[1]` would give `13`; and
the result is the same for every `theta`. -/
theorem ricker_ignores_theta :
    ricker Real.exp [3, 2] ([0] : List ℝ) [7, 7] [1] 0 1 1 0 = .ok ⟨1, 1, [4]⟩ ∧
    ricker Real.exp [5, 2] ([0] : List ℝ) [7, 7] [1] 0 1 1 0 = .ok ⟨1, 1, [6]⟩ ∧
    rickerLoop Real.exp 7 7 ([0] : List ℝ) [1] 0 1 1 0 = .ok ⟨1, 1, [13]⟩ ∧
    ∀ theta theta2 : List ℝ,
      ricker Real.exp [3, 2] ([0] : List ℝ) theta [1] 0 1 1 0 =
        ricker Real.exp [3, 2] ([0] : List ℝ) theta2 [1] 0 1 1 0 := by
  have h1 : (1 : ℤ).toNat = 1 := rfl
  have h0 : (0 : ℤ).toNat = 0 := rfl
  refine ⟨?_, ?_, ?_, fun _ _ => rfl⟩
  · simp only [ricker, rickerLoop, forLoop, replication, recordStep, load, store,
      rickerUpdate, h0, h1]
    norm_num
  · simp only [ricker, rickerLoop, forLoop, replication, recordStep, load, store,
      rickerUpdate, h0, h1]
    norm_num
  · simp only [rickerLoop, forLoop, replication, recordStep, load, store,
      rickerUpdate, h0, h1]
    norm_num

/-- C12. `expSmoothRcpp_I [10, 20, 30] 0.5` returns `[10, 15, 22.5]`. -/
theorem smoother_example :
    expSmoothRcpp_I ([10, 20, 30] : List ℝ) 0.5 = .ok [10, 15, 22.5] := by
  rw [expSmoothRcpp_I_eq _ _ (by simp)]
  simp only [smoothSeq, List.length_cons, List.length_nil, List.range_succ, List.range_zero,
    List.nil_append, List.cons_append, List.map_cons, List.map_nil, smoothAt]
  norm_num

/-- C14. For every input `y` of length `n ≥ 1`, every `a` and every index `i < n`, entry
`i` of `expSmoothRcpp_I y a` is
`a^i * y[0] + (1 - a) * (sum over j from 1 to i of a^(i-j) * y[j])`, and the weights
`a^i, (1-a)*a^(i-1), ..., (1-a)*a^0` sum to `1`. -/
theorem smoother_closed_form {α : Type} [CommRing α] (y : List α) (a : α)
    (hn : 1 ≤ y.length) :
    ∃ out, expSmoothRcpp_I y a = .ok out ∧
      ∀ i, i < y.length →
        out[i]? = some (a ^ i * y[0] +
          (1 - a) * ∑ j ∈ Finset.Icc 1 i, a ^ (i - j) * y.getD j 0) ∧
        a ^ i + ∑ j ∈ Finset.Icc 1 i, (1 - a) * a ^ (i - j) = 1 := by
  refine ⟨smoothSeq y a, expSmoothRcpp_I_eq y a hn, ?_⟩
  intro i hi
  refine ⟨?_, smooth_weights_sum a i⟩
  rw [smoothSeq_getElem? y a i hi, smoothAt_closed, List.getD_eq_getElem?_getD,
    List.getElem?_eq_getElem hn]
  rfl

/-- Witness of C14 at `y = [10, 20, 30]`, `a = 1/2` over the rationals. -/
theorem smoother_closed_form_witness :
    1 ≤ ([10, 20, 30] : List ℚ).length ∧
    ∃ out, expSmoothRcpp_I ([10, 20, 30] : List ℚ) (1 / 2) = .ok out ∧
      ∀ i, i < ([10, 20, 30] : List ℚ).length →
        out[i]? = some ((1 / 2 : ℚ) ^ i * 10 +
          (1 - 1 / 2) * ∑ j ∈ Finset.Icc 1 i,
            (1 / 2 : ℚ) ^ (i - j) * ([10, 20, 30] : List ℚ).getD j 0) ∧
        (1 / 2 : ℚ) ^ i + ∑ j ∈ Finset.Icc 1 i, (1 - 1 / 2) * (1 / 2 : ℚ) ^ (i - j) = 1 :=
  ⟨by decide, smoother_closed_form [10, 20, 30] (1 / 2) (by decide)⟩

/-- C15. For every input `y` of length `n`, every `a` and every `k` with `1 ≤ k ≤ n`,
`expSmoothRcpp_I` on the first `k` entries of `y` returns the first `k` entries of what
it returns on `y`; and entry `i` of the output is the same for every input of the same
length that agrees with `y` at the indices up to `i`. -/
theorem smoother_causal {α : Type} [Ring α] (y : List α) (a : α) (k : Nat)
    (hk1 : 1 ≤ k) (hk : k ≤ y.length) :
    ∃ out outk, expSmoothRcpp_I y a = .ok out ∧
      expSmoothRcpp_I (y.take k) a = .ok outk ∧ outk = out.take k ∧
      ∀ (y2 : List α) (i : Nat), y2.length = y.length → i < y.length →
        (∀ j, j ≤ i → y2[j]? = y[j]?) →
        ∃ out2, expSmoothRcpp_I y2 a = .ok out2 ∧ out2[i]? = out[i]? := by
  have hlen : (y.take k).length = k := by simp [List.length_take]; omega
  refine ⟨smoothSeq y a, smoothSeq (y.take k) a, expSmoothRcpp_I_eq y a (by omega),
    expSmoothRcpp_I_eq (y.take k) a (by omega), ?_, ?_⟩
  · apply List.ext_getElem?
    intro j
    rw [List.getElem?_take]
    by_cases hj : j < k
    · rw [if_pos hj, smoothSeq_getElem? _ a j (by omega), smoothSeq_getElem? y a j (by omega),
        smoothAt_congr y (y.take k) a j (fun l hl => getD_take_of_lt y k l (by omega))]
    · rw [if_neg hj, List.getElem?_eq_none (by rw [smoothSeq_length]; omega)]
  · intro y2 i hl hi hag
    refine ⟨smoothSeq y2 a, expSmoothRcpp_I_eq y2 a (by omega), ?_⟩
    rw [smoothSeq_getElem? y2 a i (by omega), smoothSeq_getElem? y a i hi,
      smoothAt_congr y y2 a i (fun j hj => by
        rw [List.getD_eq_getElem?_getD, List.getD_eq_getElem?_getD, hag j hj])]

/-- Witness of C15: the first two entries of a sequence of three. -/
theorem smoother_causal_witness :
    (1 ≤ 2 ∧ 2 ≤ ([10, 20, 30] : List ℚ).length) ∧
    ∃ out outk, expSmoothRcpp_I ([10, 20, 30] : List ℚ) (1 / 2) = .ok out ∧
      expSmoothRcpp_I (([10, 20, 30] : List ℚ).take 2) (1 / 2) = .ok outk ∧
      outk = out.take 2 ∧
      ∀ (y2 : List ℚ) (i : Nat), y2.length = ([10, 20, 30] : List ℚ).length →
        i < ([10, 20, 30] : List ℚ).length →
        (∀ j, j ≤ i → y2[j]? = ([10, 20, 30] : List ℚ)[j]?) →
        ∃ out2, expSmoothRcpp_I y2 (1 / 2) = .ok out2 ∧ out2[i]? = out[i]? :=
  ⟨⟨by decide, by decide⟩, smoother_causal [10, 20, 30] (1 / 2) 2 (by decide) (by decide)⟩

/-- C18. For every input `y` of length `n ≥ 1`, every `a` with `0 ≤ a ≤ 1` and every
index `i < n`, entry `i` of `expSmoothRcpp_I y a` lies between the least and the
greatest of `y[0], ..., y[i]`; in particular a sequence all of whose entries are the
same `c` is returned as it is. -/
theorem smoother_range {α : Type} [LinearOrderedCommRing α] (y : List α) (a : α)
    (hn : 1 ≤ y.length) (h0 : 0 ≤ a) (h1 : a ≤ 1) :
    ∃ out, expSmoothRcpp_I y a = .ok out ∧
      (∀ i, i < y.length → ∃ v, out[i]? = some v ∧ runMin y i ≤ v ∧ v ≤ runMax y i) ∧
      ∀ c, (∀ j, j < y.length → y[j]? = some c) → out = y := by
  refine ⟨smoothSeq y a, expSmoothRcpp_I_eq y a hn, ?_, ?_⟩
  · intro i hi
    exact ⟨smoothAt y a i, smoothSeq_getElem? y a i hi, smoothAt_mem_range y a h0 h1 i⟩
  · intro c hc
    apply List.ext_getElem?
    intro i
    by_cases hi : i < y.length
    · obtain ⟨hlo, hhi⟩ := smoothAt_mem_range y a h0 h1 i
      obtain ⟨e1, e2⟩ := runMin_runMax_const y c i (fun j hj => by
        rw [List.getD_eq_getElem?_getD, hc j (by omega)]
        rfl)
      rw [e1] at hlo
      rw [e2] at hhi
      rw [smoothSeq_getElem? y a i hi, hc i hi, le_antisymm hhi hlo]
    · rw [List.getElem?_eq_none (by rw [smoothSeq_length]; omega),
        List.getElem?_eq_none (by omega)]

/-- Witness of C18 at `y = [10, 20, 30]`, `a = 1/2` over the rationals. -/
theorem smoother_range_witness :
    (1 ≤ ([10, 20, 30] : List ℚ).length ∧ (0 : ℚ) ≤ 1 / 2 ∧ (1 / 2 : ℚ) ≤ 1) ∧
    ∃ out, expSmoothRcpp_I ([10, 20, 30] : List ℚ) (1 / 2) = .ok out ∧
      (∀ i, i < ([10, 20, 30] : List ℚ).length → ∃ v, out[i]? = some v ∧
        runMin ([10, 20, 30] : List ℚ) i ≤ v ∧ v ≤ runMax ([10, 20, 30] : List ℚ) i) ∧
      ∀ c, (∀ j, j < ([10, 20, 30] : List ℚ).length →
        ([10, 20, 30] : List ℚ)[j]? = some c) → out = [10, 20, 30] :=
  ⟨⟨by decide, by norm_num, by norm_num⟩,
    smoother_range [10, 20, 30] (1 / 2) (by decide) (by norm_num) (by norm_num)⟩

/-- C19. For every input `y` of length `n ≥ 1` and every `a`, `expSmoothRcpp_I`,
`expSmoothRcpp_manual` and `expSmooth2` return the same sequence, and `expSmooth` called
with `n = length y` and any buffer `ys` of length `n` leaves that sequence in `ys` and
`y` as it was. -/
theorem smoother_implementations_agree {α : Type} [Ring α] (uninit : Nat → α)
    (y ys : List α) (a : α) (hn : 1 ≤ y.length) (hys : ys.length = y.length) :
    ∃ out, expSmoothRcpp_I y a = .ok out ∧ expSmoothRcpp_manual y a = .ok out ∧
      expSmooth2 uninit y [a] = .ok out ∧
      expSmooth y ys [(y.length : Int)] [a] = .ok ⟨y, out⟩ :=
  ⟨smoothSeq y a, expSmoothRcpp_I_eq y a hn, expSmoothRcpp_manual_eq y a hn,
    expSmooth2_eq uninit y a hn, expSmooth_eq y ys a hn hys⟩

/-- Witness of C19 at `y = [10, 20, 30]`, `a = 1/2`, with a buffer `ys = [7, 8, 9]`. -/
theorem smoother_implementations_agree_witness :
    (1 ≤ ([10, 20, 30] : List ℚ).length ∧
      ([7, 8, 9] : List ℚ).length = ([10, 20, 30] : List ℚ).length) ∧
    ∃ out, expSmoothRcpp_I ([10, 20, 30] : List ℚ) (1 / 2) = .ok out ∧
      expSmoothRcpp_manual ([10, 20, 30] : List ℚ) (1 / 2) = .ok out ∧
      expSmooth2 (fun _ => 5) ([10, 20, 30] : List ℚ) [1 / 2] = .ok out ∧
      expSmooth ([10, 20, 30] : List ℚ) [7, 8, 9] [(3 : Int)] [1 / 2] = .ok ⟨[10, 20, 30], out⟩ :=
  ⟨⟨by decide, by decide⟩,
    smoother_implementations_agree (fun _ => 5) [10, 20, 30] [7, 8, 9] (1 / 2)
      (by decide) (by decide)⟩

/-- C16. With `sig_e = 0`, for all naturals `R`, `b`, `h`, every `x0` and `log_r` and
any two noise sequences of length at least `R * (b + h)`, the loops of `ricker` end in
the same memory (the same output), and in it every replication has recorded the same
values: cell `k * h + i` holds what cell `i` holds, for `k < R` and `i < h`. -/
theorem ricker_zero_noise_scale {α : Type} [Ring α] (exp : α → α) (log_r : α)
    (n e1 e2 : List α) (x0 : α) (b h R : Nat)
    (he1 : R * (b + h) ≤ e1.length) (he2 : R * (b + h) ≤ e2.length)
    (hn : R * h ≤ n.length) :
    ∃ fin, rickerLoop exp log_r 0 n e1 b h R x0 = .ok fin ∧
      rickerLoop exp log_r 0 n e2 b h R x0 = .ok fin ∧
      ∀ k i, k < R → i < h → fin.out[k * h + i]? = fin.out[i]? := by
  obtain ⟨out1, hrun1, hlen1, hcell1, hrest1⟩ :=
    rickerLoop_cells exp log_r 0 e1 n x0 b h R he1 hn
  obtain ⟨out2, hrun2, hlen2, hcell2, hrest2⟩ :=
    rickerLoop_cells exp log_r 0 e2 n x0 b h R he2 hn
  have hout : out2 = out1 := by
    apply List.ext_getElem?
    intro idx
    by_cases hidx : idx < R * h
    · have hpos : 0 < h := by
        rcases Nat.eq_zero_or_pos h with h0 | h0
        · rw [h0] at hidx; omega
        · exact h0
      have hdm := Nat.div_add_mod idx h
      have hmod := Nat.mod_lt idx hpos
      have hk : idx / h < R := by
        rw [Nat.div_lt_iff_lt_mul hpos]; exact hidx
      have hidx2 : idx = idx / h * h + idx % h := by rw [Nat.mul_comm]; omega
      rw [hidx2, hcell1 _ _ hk hmod, hcell2 _ _ hk hmod]
      congr 1
      exact foldl_zero_scale exp log_r _ _ x0 (by
        rw [length_block e2 b h R _ _ he2 hk hmod, length_block e1 b h R _ _ he1 hk hmod])
    · rw [hrest1 idx (by omega), hrest2 idx (by omega)]
  refine ⟨_, hrun1, by rw [hrun2, hout], ?_⟩
  intro k i hk hi
  have h0 := hcell1 0 i (by omega) hi
  rw [Nat.zero_mul, Nat.zero_add] at h0
  simp only
  rw [hcell1 k i hk hi, h0]
  congr 1
  exact foldl_zero_scale exp log_r _ _ x0 (by
    rw [length_block e1 b h R k i he1 hk hi, Nat.zero_mul,
      ← Nat.zero_mul (b + h), length_block e1 b h R 0 i he1 (by omega) hi])

/-- Witness of C16: two replications of one burn-in and one recorded step on two
different noise sequences. -/
theorem ricker_zero_noise_scale_witness :
    (2 * (1 + 1) ≤ ([1, 2, 3, 4] : List ℝ).length ∧
      2 * (1 + 1) ≤ ([9, 8, 7, 6, 5] : List ℝ).length ∧ 2 * 1 ≤ ([0, 0] : List ℝ).length) ∧
    ∃ fin, rickerLoop Real.exp 3 0 ([0, 0] : List ℝ) [1, 2, 3, 4]
        (1 : ℕ) (1 : ℕ) (2 : ℕ) 5 = .ok fin ∧
      rickerLoop Real.exp 3 0 ([0, 0] : List ℝ) [9, 8, 7, 6, 5]
        (1 : ℕ) (1 : ℕ) (2 : ℕ) 5 = .ok fin ∧
      ∀ k i, k < 2 → i < 1 → fin.out[k * 1 + i]? = fin.out[i]? :=
  ⟨⟨by simp, by simp, by simp⟩,
    ricker_zero_noise_scale Real.exp 3 [0, 0] [1, 2, 3, 4] [9, 8, 7, 6, 5] 5 1 1 2
      (by simp) (by simp) (by simp)⟩

/-- C17. For all naturals `R`, `b`, `h`, a noise of length at least `R * (b + h)` and an
output buffer of length `R * h`, the loops of `ricker` end without fault, that is, with
every noise read and every output write inside its buffer; the noise pointer ends at
`R * (b + h)` and the output pointer at `R * h`, and with `h = 0` the noise pointer ends
at `R * b` with the buffer as it was.  Every pass that does not fault reads inside the
noise and moves the noise pointer by exactly one; a recording pass also writes inside the
buffer and moves the output pointer by one. -/
theorem ricker_bounds_safety {α : Type} [Ring α] (exp : α → α) (log_r sig_e : α)
    (n e : List α) (x0 : α) (b h R : Nat)
    (he : R * (b + h) ≤ e.length) (hn : n.length = R * h) :
    (∃ fin, rickerLoop exp log_r sig_e n e b h R x0 = .ok fin ∧
      fin.e = R * (b + h) ∧ fin.n = R * h ∧ fin.out.length = R * h ∧
      (h = 0 → fin.e = R * b ∧ fin.n = 0 ∧ fin.out = n)) ∧
    (∀ i s s1, burnStep exp log_r sig_e e i s = .ok s1 →
      s.m.e < e.length ∧ s1.m.e = s.m.e + 1 ∧ s1.m.n = s.m.n ∧ s1.m.out = s.m.out) ∧
    ∀ i s s1, recordStep exp log_r sig_e e i s = .ok s1 →
      s.m.e < e.length ∧ s.m.n < s.m.out.length ∧
        s1.m.e = s.m.e + 1 ∧ s1.m.n = s.m.n + 1 := by
  refine ⟨?_, burnStep_ok_bounds exp log_r sig_e e, recordStep_ok_bounds exp log_r sig_e e⟩
  obtain ⟨out, hrun, hlen, -, hrest⟩ :=
    rickerLoop_cells exp log_r sig_e e n x0 b h R he (by omega)
  refine ⟨_, hrun, rfl, rfl, by simp only; omega, ?_⟩
  intro h0
  subst h0
  refine ⟨by simp, by simp, ?_⟩
  apply List.ext_getElem?
  intro idx
  exact hrest idx (by simp)

/-- Witness of C17: three replications of two burn-in steps and no recorded step. -/
theorem ricker_bounds_safety_witness :
    (3 * (2 + 0) ≤ ([1, 2, 3, 4, 5, 6] : List ℝ).length ∧
      ([] : List ℝ).length = 3 * 0) ∧
    ((∃ fin, rickerLoop Real.exp 3 2 ([] : List ℝ) [1, 2, 3, 4, 5, 6]
        (2 : ℕ) (0 : ℕ) (3 : ℕ) 5 = .ok fin ∧
      fin.e = 3 * (2 + 0) ∧ fin.n = 3 * 0 ∧ fin.out.length = 3 * 0 ∧
      (0 = 0 → fin.e = 3 * 2 ∧ fin.n = 0 ∧ fin.out = [])) ∧
    (∀ i s s1, burnStep Real.exp 3 2 ([1, 2, 3, 4, 5, 6] : List ℝ) i s = .ok s1 →
      s.m.e < ([1, 2, 3, 4, 5, 6] : List ℝ).length ∧ s1.m.e = s.m.e + 1 ∧
        s1.m.n = s.m.n ∧ s1.m.out = s.m.out) ∧
    ∀ i s s1, recordStep Real.exp 3 2 ([1, 2, 3, 4, 5, 6] : List ℝ) i s = .ok s1 →
      s.m.e < ([1, 2, 3, 4, 5, 6] : List ℝ).length ∧ s.m.n < s.m.out.length ∧
        s1.m.e = s.m.e + 1 ∧ s1.m.n = s.m.n + 1) :=
  ⟨⟨by simp, by simp⟩,
    ricker_bounds_safety Real.exp 3 2 [] [1, 2, 3, 4, 5, 6] 5 2 0 3 (by simp) (by simp)⟩

/-- C13. For vectors `x1`, `x2` of equal length `n` (`n = 0` included) `dotRcpp_I`
returns the vector of length one holding the sum over `i < n` of `x1[i] * x2[i]`, and
`dotArma_I`, `dotArma_I2` and `secondDot_I` (with `dotArma_I2` behind
`mypack::dotArma2`) return the same vector. -/
theorem dot_products_agree {α : Type} [Ring α] (x1 x2 : List α)
    (hlen : x1.length = x2.length) :
    dotRcpp_I x1 x2 = .ok [∑ i ∈ Finset.range x1.length, x1.getD i 0 * x2.getD i 0] ∧
    dotArma_I x1 x2 = some [∑ i ∈ Finset.range x1.length, x1.getD i 0 * x2.getD i 0] ∧
    dotArma_I2 x1 x2 = some [∑ i ∈ Finset.range x1.length, x1.getD i 0 * x2.getD i 0] ∧
    secondDot_I dotArma_I2 x1 x2 =
      some [∑ i ∈ Finset.range x1.length, x1.getD i 0 * x2.getD i 0] := by
  have h2 : dotArma_I2 x1 x2 =
      some [∑ i ∈ Finset.range x1.length, x1.getD i 0 * x2.getD i 0] := by
    simp [dotArma_I2, arma_dot x1 x2 hlen, as_scalar, Mat.toVec, sum_map_range]
  refine ⟨?_, ?_, h2, h2⟩
  · simp [dotRcpp_I, sugarSum_ok x1 x2 (by omega), store]
  · simp [dotArma_I, arma_dot x1 x2 hlen, as_scalar, Mat.toVec, sum_map_range]

/-- Witness of C13 at `x1 = [1, 2, 3]`, `x2 = [4, 5, 6]` over the rationals. -/
theorem dot_products_agree_witness :
    ([1, 2, 3] : List ℚ).length = ([4, 5, 6] : List ℚ).length ∧
    (dotRcpp_I ([1, 2, 3] : List ℚ) [4, 5, 6] =
      .ok [∑ i ∈ Finset.range 3, ([1, 2, 3] : List ℚ).getD i 0 * ([4, 5, 6] : List ℚ).getD i 0] ∧
    dotArma_I ([1, 2, 3] : List ℚ) [4, 5, 6] =
      some [∑ i ∈ Finset.range 3, ([1, 2, 3] : List ℚ).getD i 0 * ([4, 5, 6] : List ℚ).getD i 0] ∧
    dotArma_I2 ([1, 2, 3] : List ℚ) [4, 5, 6] =
      some [∑ i ∈ Finset.range 3, ([1, 2, 3] : List ℚ).getD i 0 * ([4, 5, 6] : List ℚ).getD i 0] ∧
    secondDot_I dotArma_I2 ([1, 2, 3] : List ℚ) [4, 5, 6] =
      some [∑ i ∈ Finset.range 3, ([1, 2, 3] : List ℚ).getD i 0 * ([4, 5, 6] : List ℚ).getD i 0]) :=
  ⟨by decide, dot_products_agree [1, 2, 3] [4, 5, 6] (by decide)⟩

end FurtherClaims

end SC2
